import Mathlib

/-!
Verification development for the clarusjs forward-chaining inference engine.

The definitions below are a shallow embedding of the engine core:
`src/strategies/AdvancedMatcher.js`, `src/strategies/SalienceConflictResolver.js`,
`src/components/FactStorage.js`, `src/components/Agenda.js` and
`src/engine/LeapEngine.js`.  JavaScript values are modelled by the inductive
type `Value`; JavaScript numbers are modelled exactly as far as the engine
inspects them (NaN and negative zero are distinguished values, every other
number is an exact rational).  Fallible evaluation is modelled with
`Option`/`Except`, and the generator-based engine loops are modelled as pure
recursive functions on an explicit engine state, with a fuel parameter where
the JavaScript recursion is not structurally bounded.
-/

namespace Clarus

/-- Model of a JavaScript number as the engine observes it: NaN and
negative zero are distinguished, all other doubles are represented by an
exact rational. -/
inductive JSNum where
  | nan : JSNum
  | negZero : JSNum
  | fin : ℚ → JSNum
deriving DecidableEq, Repr

/-- Model of a JavaScript value (facts, pattern literals, bindings values).
Functions are not values here; predicate patterns are a separate `Pattern`
constructor, mirroring the dispatch in `AdvancedMatcher.match`. -/
inductive Value where
  | undef : Value
  | null : Value
  | bool : Bool → Value
  | num : JSNum → Value
  | str : String → Value
  | arr : List Value → Value
  | obj : List (String × Value) → Value

/-- Shorthand for a finite JavaScript number. -/
def Value.qnum (q : ℚ) : Value := .num (.fin q)

/-- The JS `s.startsWith(p)` via the underlying character lists (the library
version does not reduce inside the kernel). -/
def strStartsWith (s p : String) : Bool := p.data.isPrefixOf s.data

/-- The JS `s.substring(n)` via the underlying character lists. -/
def strDrop (s : String) (k : Nat) : String := String.mk (s.data.drop k)

/-- JavaScript own-property lookup used by the matcher and the engine
(`Object.prototype.hasOwnProperty.call(fact, key)` followed by `fact[key]`).
Arrays expose `length` and canonical index keys as own properties. -/
def jsGetOwn : Value → String → Option Value
  | .obj fs, k => (fs.find? (fun f => f.1 == k)).map (fun f => f.2)
  | .arr xs, k =>
    if k == "length" then some (.num (.fin (xs.length : ℚ)))
    else
      match k.toNat? with
      | some i => if toString i == k then xs.get? i else none
      | none => none
  | _, _ => none

/-- The JS `typeof fact === 'object' && fact !== null` (arrays included). -/
def isObjectLike : Value → Bool
  | .obj _ => true
  | .arr _ => true
  | _ => false

/-- Variable bindings: a JavaScript object from variable name to value,
in insertion order. -/
abbrev Bindings := List (String × Value)

/-- Property read `bindings[k]`: `undefined` when the key is absent. -/
def lookupB (b : Bindings) (k : String) : Value :=
  match b.find? (fun kv => kv.1 == k) with
  | some kv => kv.2
  | none => Value.undef

/-- The JS `Object.prototype.hasOwnProperty.call(bindings, k)`. -/
def hasKeyB (b : Bindings) (k : String) : Bool :=
  (b.find? (fun kv => kv.1 == k)).isSome

/-- Property write `bindings[k] = v`: replaces the value in place when the
key exists (JavaScript keeps the original key position), appends otherwise. -/
def setB : Bindings → String → Value → Bindings
  | [], k, v => [(k, v)]
  | kv :: rest, k, v => if kv.1 == k then (k, v) :: rest else kv :: setB rest k v

/-- A pattern handed to `AdvancedMatcher.match`.  `any` is the `ANY` wildcard
symbol, `pred` a predicate function (which may throw, modelled by `Except`),
`str` any string pattern (variable references and rest markers are recognised
by their prefix at match time, exactly as in the source), `arr`/`obj` are
structural patterns and `val` any other literal value. -/
inductive Pattern where
  | any : Pattern
  | pred : (Value → Except Unit Bool) → Pattern
  | str : String → Pattern
  | arr : List Pattern → Pattern
  | obj : List (String × Pattern) → Pattern
  | val : Value → Pattern

/-- Reinterpret a stored binding value as a pattern, as done by the
consistency check `this.match(boundValue, fact, bindings)` in
`AdvancedMatcher.match`: a stored string is again subject to the variable
sigil test, stored arrays and objects are matched structurally. -/
def Pattern.ofValue : Value → Pattern
  | .undef => .val .undef
  | .null => .val .null
  | .bool c => .val (.bool c)
  | .num n => .val (.num n)
  | .str s => .str s
  | .arr xs => .arr (xs.attach.map (fun x => Pattern.ofValue x.1))
  | .obj fs => .obj (fs.attach.map (fun f => (f.1.1, Pattern.ofValue f.1.2)))
decreasing_by
  · have h := List.sizeOf_lt_of_mem x.2
    simp only [Value.arr.sizeOf_spec]
    omega
  · have h := List.sizeOf_lt_of_mem f.2
    have h2 : sizeOf f.1.2 < sizeOf f.1 := by
      obtain ⟨a, c⟩ := f.1
      simp only [Prod.mk.sizeOf_spec]
      omega
    simp only [Value.obj.sizeOf_spec]
    omega

/-- The JS `Object.is` comparison numbers: NaN equals itself, positive and negative
zero are distinct. -/
def sameValueNum : JSNum → JSNum → Bool
  | .nan, .nan => true
  | .negZero, .negZero => true
  | .fin a, .fin b => a == b
  | _, _ => false

/-- The JS `Object.is(pattern, fact)`, the final clause of `AdvancedMatcher.match`.
The matcher reaches this clause only with a non-array, non-object pattern
(composites were dispatched earlier), so composite-versus-composite
comparison — reference identity in JavaScript, unobservable in a value
model — is modelled as false. -/
def objectIs : Value → Value → Bool
  | .undef, .undef => true
  | .null, .null => true
  | .bool a, .bool b => a == b
  | .num a, .num b => sameValueNum a b
  | .str a, .str b => a == b
  | _, _ => false

/-- The rest-marker test used by `pattern.findIndex` in the array clause:
a string element starting with three dots. -/
def isRestMarker : Pattern → Bool
  | .str s => strStartsWith s "..."
  | _ => false

/-- The rest variable name: `restVariableName.substring(3)` of the marker
found at index `i`. -/
def restMarkerName (ps : List Pattern) (i : Nat) : String :=
  match ps.get? i with
  | some (.str s) => strDrop s 3
  | _ => ""

/-- Positional element matching with left-to-right threading of bindings and
early exit on the first failure, as the head/tail/plain element loops of the
array clause do.  `m` is the recursive matcher at the next fuel level. -/
def matchSeq (m : Pattern → Value → Bindings → Option (Bool × Bindings)) :
    List (Pattern × Value) → Bindings → Option (Bool × Bindings)
  | [], b => some (true, b)
  | pv :: rest, b =>
    match m pv.1 pv.2 b with
    | none => none
    | some (false, b2) => some (false, b2)
    | some (true, b2) => matchSeq m rest b2

/-- The object-pattern clause body: every pattern key must be an own property
of the candidate, each present field is matched recursively with bindings
threaded left to right. -/
def matchObjFields (m : Pattern → Value → Bindings → Option (Bool × Bindings)) :
    List (String × Pattern) → Value → Bindings → Option (Bool × Bindings)
  | [], _, b => some (true, b)
  | kp :: rest, fact, b =>
    match jsGetOwn fact kp.1 with
    | none => some (false, b)
    | some fv =>
      match m kp.2 fv b with
      | none => none
      | some (false, b2) => some (false, b2)
      | some (true, b2) => matchObjFields m rest fact b2

/-- The JS `AdvancedMatcher.match(pattern, fact, bindings)`.  The JavaScript
function is partial (a variable bound to a variable-shaped string recurses
forever), so the embedding takes a fuel parameter; `none` models
non-termination, never a result.  All other behaviour follows the source
clause for clause. -/
def jsMatch : Nat → Pattern → Value → Bindings → Option (Bool × Bindings)
  | 0, _, _, _ => none
  | _ + 1, .any, _, b => some (true, b)
  | _ + 1, .pred f, fact, b =>
    match f fact with
    | .ok r => some (r, b)
    | .error _ => some (false, b)
  | fuel + 1, .str s, fact, b =>
    if strStartsWith s "?" then
      match lookupB b s with
      | .undef => some (true, setB b s fact)
      | bound => jsMatch fuel (Pattern.ofValue bound) fact b
    else some (objectIs (.str s) fact, b)
  | fuel + 1, .arr ps, fact, b =>
    match fact with
    | .arr xs =>
      (match ps.findIdx? isRestMarker with
      | some i =>
        if 1 < (ps.filter isRestMarker).length then some (false, b)
        else
          let headPat := ps.take i
          let tailPat := ps.drop (i + 1)
          if xs.length < headPat.length + tailPat.length then some (false, b)
          else
            match matchSeq (fun p v b2 => jsMatch fuel p v b2) (headPat.zip xs) b with
            | none => none
            | some (false, b2) => some (false, b2)
            | some (true, b2) =>
              match matchSeq (fun p v b2 => jsMatch fuel p v b2)
                  (tailPat.zip (xs.drop (xs.length - tailPat.length))) b2 with
              | none => none
              | some (false, b3) => some (false, b3)
              | some (true, b3) =>
                some (true, setB b3 (restMarkerName ps i)
                  (.arr ((xs.drop headPat.length).take
                    (xs.length - tailPat.length - headPat.length))))
      | none =>
        if ps.length ≠ xs.length then some (false, b)
        else matchSeq (fun p v b2 => jsMatch fuel p v b2) (ps.zip xs) b)
    | _ => some (false, b)
  | fuel + 1, .obj fs, fact, b =>
    if isObjectLike fact then matchObjFields (fun p v b2 => jsMatch fuel p v b2) fs fact b
    else some (false, b)
  | _ + 1, .val v, fact, b => some (objectIs v fact, b)


/-- Primitive (non-composite) values: everything the matcher can reach the
final `Object.is` clause with. -/
def Value.isPrimitive : Value → Bool
  | .arr _ => false
  | .obj _ => false
  | _ => true

/-! ## Guard expression evaluator (`LeapEngine.#executeGuard`) -/

/-- JavaScript truthiness. -/
def jsTruthy : Value → Bool
  | .undef => false
  | .null => false
  | .bool c => c
  | .num .nan => false
  | .num .negZero => false
  | .num (.fin q) => !(q == 0)
  | .str s => !(s == "")
  | .arr _ => true
  | .obj _ => true

/-- The JS `typeof v` is number or boolean (the operand test of
`expectNumericOperands`). -/
def isNumBool : Value → Bool
  | .num _ => true
  | .bool _ => true
  | _ => false

/-- The `numericArgs` coercion: booleans become 1/0, numbers are kept. -/
def coerceNum : Value → JSNum
  | .bool true => .fin 1
  | .bool false => .fin 0
  | .num n => n
  | _ => .nan

/-- True exactly when the double is NaN. -/
def jsIsNan : JSNum → Bool
  | .nan => true
  | _ => false

/-- The rational magnitude of a non-NaN double (negative zero reads as 0). -/
def jsq : JSNum → ℚ
  | .fin q => q
  | .negZero => 0
  | .nan => 0

/-- The JS `n === 0` on numbers: both zeros pass, NaN does not. -/
def jsNumIsZero : JSNum → Bool
  | .fin q => q == 0
  | .negZero => true
  | .nan => false

/-- Addition with NaN propagation.  The sign of a zero result is not
tracked (a `-0` result is modelled as `+0`); no claim inspects it. -/
def jsAdd (a b : JSNum) : JSNum :=
  if jsIsNan a || jsIsNan b then .nan else .fin (jsq a + jsq b)

/-- Subtraction with NaN propagation (zero signs as in `jsAdd`). -/
def jsSub (a b : JSNum) : JSNum :=
  if jsIsNan a || jsIsNan b then .nan else .fin (jsq a - jsq b)

/-- Negation with NaN propagation (zero signs as in `jsAdd`). -/
def jsNeg (a : JSNum) : JSNum :=
  if jsIsNan a then .nan else .fin (-(jsq a))

/-- Multiplication with NaN propagation (zero signs as in `jsAdd`). -/
def jsMul (a b : JSNum) : JSNum :=
  if jsIsNan a || jsIsNan b then .nan else .fin (jsq a * jsq b)

/-- Division with NaN propagation; the engine raises an error before a zero
divisor can reach this (zero signs as in `jsAdd`). -/
def jsDiv (a b : JSNum) : JSNum :=
  if jsIsNan a || jsIsNan b then .nan else .fin (jsq a / jsq b)

/-- The JS `a < b` on doubles: false whenever either side is NaN. -/
def jsNumLt (a b : JSNum) : Bool :=
  if jsIsNan a || jsIsNan b then false else decide (jsq a < jsq b)

/-- Strict equality `===` on numbers: NaN is unequal to itself, the two
zeros are equal. -/
def jsStrictEqNum (a b : JSNum) : Bool :=
  if jsIsNan a || jsIsNan b then false else jsq a == jsq b

/-- Strict equality `===`.  Composite operands compare by reference in
JavaScript; distinct values in this model never alias, so composites are
modelled as unequal. -/
def jsStrictEq : Value → Value → Bool
  | .undef, .undef => true
  | .null, .null => true
  | .bool a, .bool b => a == b
  | .num a, .num b => jsStrictEqNum a b
  | .str a, .str b => a == b
  | _, _ => false

/-- String coercion used by the string branch of `+` and for property keys.
Integral numbers print exactly; other composites and non-integral doubles
are not printed faithfully (no claim depends on them). -/
def jsToString : Value → String
  | .str s => s
  | .bool true => "true"
  | .bool false => "false"
  | .undef => "undefined"
  | .null => "null"
  | .num .nan => "NaN"
  | .num .negZero => "0"
  | .num (.fin q) =>
    if q.den == 1 then
      (if q.num < 0 then "-" ++ toString q.num.natAbs else toString q.num.natAbs)
    else "~nonIntegralNumber"
  | .arr _ => "~array"
  | .obj _ => "~object"

/-- Engine events, modelled only as far as the claims inspect them: guard
errors reported through `engine:guardError` carry the rule id. -/
inductive EngineEvent where
  | guardError : Option String → EngineEvent
deriving DecidableEq, Repr

/-- A guard S-expression operand: a non-array literal value, or a nested
`[op, ...args]` array.  In JavaScript an array operand is always evaluated
as a nested expression. -/
inductive GExpr where
  | val : Value → GExpr
  | call : Value → List GExpr → GExpr

/-- The array value a guard expression denotes when returned unevaluated
(the `pathOr` default is returned raw). -/
def GExpr.toValue : GExpr → Value
  | .val v => v
  | .call op args => .arr (op :: args.attach.map (fun a => GExpr.toValue a.1))
decreasing_by
  have h := List.sizeOf_lt_of_mem a.2
  simp only [GExpr.call.sizeOf_spec]
  omega

/-- Evaluation outcome of a guard: a thrown error (described by a constant
message) or a value, together with the events emitted along the way. -/
abbrev GuardOut := Except String Value × List EngineEvent

/-- The JS `#resolveGuardValue`: a `?`-string resolves from the bindings (an
absent binding is `undefined`, or a thrown projection error when
`strictUnbound` is set), an array evaluates as a nested guard with a null
rule id, anything else is a literal.  `ev` is the guard evaluator at the
next fuel level, applied with rule id `none`. -/
def resolveGV (ev : GExpr → Bindings → GuardOut) :
    GExpr → Bindings → Bool → GuardOut
  | .val (.str s), b, strict =>
    if strStartsWith s "?" then
      if !hasKeyB b s then
        if strict then (.error "Projection Error: variable is not bound", [])
        else (.ok .undef, [])
      else (.ok (lookupB b s), [])
    else (.ok (.str s), [])
  | .val v, _, _ => (.ok v, [])
  | .call op args, b, _ => ev (.call op args) b

/-- Resolve an argument list left to right, short-circuiting on the first
thrown error and concatenating emitted events (the `args.map` call in
`#executeGuard`). -/
def resolveArgList (r : GExpr → GuardOut) :
    List GExpr → Except String (List Value) × List EngineEvent
  | [] => (.ok [], [])
  | a :: rest =>
    match r a with
    | (.error e, evs) => (.error e, evs)
    | (.ok v, evs) =>
      match resolveArgList r rest with
      | (.error e, evs2) => (.error e, evs ++ evs2)
      | (.ok vs, evs2) => (.ok (v :: vs), evs ++ evs2)

/-- The JS `expectNumericOperands`: optional arity check, then every operand must
be of number or boolean type; a violation emits a guard-error event and
throws. -/
def expectNumeric (rid : Option String) (operands : List Value)
    (numExpected : Option Nat) : Except String Unit × List EngineEvent :=
  match numExpected with
  | some k =>
    if operands.length ≠ k then
      (.error "operator expects a fixed number of numeric operands",
        [.guardError rid])
    else expectNumericEach rid operands
  | none => expectNumericEach rid operands
where
  /-- The per-operand type check loop. -/
  expectNumericEach (rid : Option String) :
      List Value → Except String Unit × List EngineEvent
    | [] => (.ok (), [])
    | v :: rest =>
      if isNumBool v then expectNumericEach rid rest
      else (.error "operator expects numeric operands", [.guardError rid])

/-- The property walk of the `path`/`pathOr` operators:
`obj = obj[part] ?? obj['?' + part]` while `obj` is object-like, else
`undefined`.  Path segments are used raw (not resolved), coerced to a
property key. -/
def pathWalk : Value → List String → Value
  | v, [] => v
  | v, k :: rest =>
    if isObjectLike v then
      let v1 := (jsGetOwn v k).getD .undef
      let v2 :=
        match v1 with
        | .undef => (jsGetOwn v ("?" ++ k)).getD .undef
        | .null => (jsGetOwn v ("?" ++ k)).getD .undef
        | w => w
      pathWalk v2 rest
    else Value.undef

/-- The JS `target?.length ?? target?.size` for the `hasSize` operator: strings
and arrays expose `length`; objects expose their own `length` or `size`
fields. -/
def jsLengthOrSize : Value → Value
  | .str s => .num (.fin (s.data.length : ℚ))
  | .arr xs => .num (.fin (xs.length : ℚ))
  | .obj fs =>
    match (fs.find? (fun f => f.1 == "length")).map (fun f => f.2) with
    | some Value.undef =>
      ((fs.find? (fun f => f.1 == "size")).map (fun f => f.2)).getD .undef
    | some Value.null =>
      ((fs.find? (fun f => f.1 == "size")).map (fun f => f.2)).getD .undef
    | some v => v
    | none => ((fs.find? (fun f => f.1 == "size")).map (fun f => f.2)).getD .undef
  | _ => Value.undef

/-- The JS `v == null` (loose): null or undefined. -/
def jsLooseNil : Value → Bool
  | .undef => true
  | .null => true
  | _ => false

/-- The `path`/`pathOr` branch of `#executeGuard`: resolve the target
expression, walk the raw path segments, and fall back to the raw default
operand when `pathOr` ends at undefined. -/
def pathOp (resolve : GExpr → GuardOut) (isPathOr : Bool) (args : List GExpr) :
    GuardOut :=
  let target := if isPathOr then (args.get? 1).getD (.val .undef)
    else (args.get? 0).getD (.val .undef)
  let segs := (if isPathOr then args.drop 2 else args.drop 1).map
    (fun a => jsToString a.toValue)
  match resolve target with
  | (.error e, evs) => (.error e, evs)
  | (.ok tv, evs) =>
    match pathWalk tv segs with
    | .undef =>
      if isPathOr then (.ok ((args.get? 0).getD (.val .undef)).toValue, evs)
      else (.ok .undef, evs)
    | w => (.ok w, evs)

/-- The `isNil`/`isDefined` branch: arity 1, then a loose null check (or
its negation). -/
def isNilOp (resolve : GExpr → GuardOut) (neg : Bool) (args : List GExpr) :
    GuardOut :=
  if args.length ≠ 1 then (.error "isNil expects 1 argument", [])
  else
    match resolve (args.headD (.val .undef)) with
    | (.error e, evs) => (.error e, evs)
    | (.ok v, evs) =>
      (.ok (.bool (if neg then !jsLooseNil v else jsLooseNil v)), evs)

/-- The `hasSize` branch: arity 2, resolve target and matcher, read
`length ?? size`, non-numeric sizes never match, otherwise strict
equality. -/
def hasSizeOp (resolve : GExpr → GuardOut) (args : List GExpr) : GuardOut :=
  if args.length ≠ 2 then (.error "hasSize expects 2 arguments", [])
  else
    match resolve (args.headD (.val .undef)) with
    | (.error e, evs) => (.error e, evs)
    | (.ok target, evs) =>
      match resolve ((args.get? 1).getD (.val .undef)) with
      | (.error e, evs2) => (.error e, evs ++ evs2)
      | (.ok sizeMatcher, evs2) =>
        match jsLengthOrSize target with
        | .num szn =>
          (.ok (.bool (jsStrictEq (.num szn) sizeMatcher)), evs ++ evs2)
        | _ => (.ok (.bool false), evs ++ evs2)

/-- The operator switch of `#executeGuard` over already-resolved operands:
comparisons (exactly two numeric-or-boolean operands), strict equality,
arithmetic (string concatenation when `+` sees any string operand, an
explicit error on a zero divisor), and the unknown-operator error. -/
def applyOp (rid : Option String) (op : Value) (ra : List Value) : GuardOut :=
  let nums := ra.map coerceNum
  let cmpOp := fun (test : JSNum → JSNum → Bool) =>
    match expectNumeric rid ra (some 2) with
    | (.error e, evs2) => (.error e, evs2)
    | (.ok _, evs2) =>
      (Except.ok (.bool (test (nums.headD .nan) ((nums.get? 1).getD .nan))), evs2)
  if jsStrictEq op (.str ">") then
    cmpOp (fun a b2 => jsNumLt b2 a)
  else if jsStrictEq op (.str ">=") then
    cmpOp (fun a b2 => !jsNumLt a b2 && !(jsIsNan a || jsIsNan b2))
  else if jsStrictEq op (.str "<") then
    cmpOp jsNumLt
  else if jsStrictEq op (.str "<=") then
    cmpOp (fun a b2 => !jsNumLt b2 a && !(jsIsNan a || jsIsNan b2))
  else if jsStrictEq op (.str "===") then
    (.ok (.bool (jsStrictEq (ra.headD .undef) ((ra.get? 1).getD .undef))), [])
  else if jsStrictEq op (.str "!==") then
    (.ok (.bool (!jsStrictEq (ra.headD .undef) ((ra.get? 1).getD .undef))), [])
  else if jsStrictEq op (.str "+") then
    if ra.any (fun v => match v with | .str _ => true | _ => false) then
      (.ok (.str (ra.foldl (fun acc v => acc ++ jsToString v) "")), [])
    else
      match expectNumeric rid ra none with
      | (.error e, evs2) => (.error e, evs2)
      | (.ok _, evs2) => (.ok (.num (nums.foldl jsAdd (.fin 0))), evs2)
  else if jsStrictEq op (.str "-") then
    match expectNumeric rid ra none with
    | (.error e, evs2) => (.error e, evs2)
    | (.ok _, evs2) =>
      match nums with
      | [] => (.ok .undef, evs2)
      | [a] => (.ok (.num (jsNeg a)), evs2)
      | a :: rest => (.ok (.num (rest.foldl jsSub a)), evs2)
  else if jsStrictEq op (.str "*") then
    match expectNumeric rid ra none with
    | (.error e, evs2) => (.error e, evs2)
    | (.ok _, evs2) => (.ok (.num (nums.foldl jsMul (.fin 1))), evs2)
  else if jsStrictEq op (.str "/") then
    match expectNumeric rid ra (some 2) with
    | (.error e, evs2) => (.error e, evs2)
    | (.ok _, evs2) =>
      if jsNumIsZero ((nums.get? 1).getD .nan) then
        (.error "Guard Error: Division by zero", evs2 ++ [.guardError rid])
      else
        (.ok (.num (jsDiv (nums.headD .nan) ((nums.get? 1).getD .nan))), evs2)
  else
    (.error "Guard Error: Unknown operator", [.guardError rid])

/-- The JS `#executeGuard(guard, bindings, ruleIdForContext)`.  A non-array guard
is a thrown `TypeError` with a guard-error event; `[op, ...args]`
dispatches on `op`: the `path`, `isNil`-family and `hasSize` operators work
on raw arguments through their helpers, every other operator resolves all
its arguments left to right and runs the `applyOp` switch.  The fuel
bounds the nesting depth of sub-expressions (the JavaScript recursion is
structural, so any fuel larger than the expression depth suffices);
exhaustion is a distinguished error reachable by no expression given
enough fuel. -/
def execGuard : Nat → GExpr → Bindings → Option String → GuardOut
  | _, .val _, _, rid =>
    (.error "Guard expression must be a non-empty array", [.guardError rid])
  | 0, .call _ _, _, _ => (.error "guard evaluator fuel exhausted", [])
  | fuel + 1, .call op args, b, rid =>
    let resolve := fun (a : GExpr) =>
      resolveGV (fun e b2 => execGuard fuel e b2 none) a b false
    if jsStrictEq op (.str "path") then pathOp resolve false args
    else if jsStrictEq op (.str "pathOr") then pathOp resolve true args
    else if jsStrictEq op (.str "isNil") then isNilOp resolve false args
    else if jsStrictEq op (.str "isDefined") then isNilOp resolve true args
    else if jsStrictEq op (.str "hasSize") then hasSizeOp resolve args
    else
      match resolveArgList resolve args with
      | (.error e, evs) => (.error e, evs)
      | (.ok ra, evs) =>
        match applyOp rid op ra with
        | (r, evs2) => (r, evs ++ evs2)

/-! ## Fact storage (`src/components/FactStorage.js`) and agenda -/

/-- Fact metadata: the `logical` flag and the producing activation used by
the truth maintenance system. -/
structure FactMeta where
  logical : Bool
  producedBy : Option Nat
deriving DecidableEq, Repr

/-- A stored fact entry: the fact object (with its `_id` field) plus
metadata. -/
structure FactEntry where
  fact : Value
  metadata : FactMeta

/-- The fact store: the id counter and the primary map in insertion order.
The by-type `alphaNetwork` index always holds, per type, exactly the
primary-map facts of that type in the same relative order (inserts and
deletes hit both structures together), so it is derived rather than
duplicated. -/
structure Storage where
  counter : Nat
  facts : List (Nat × FactEntry)

/-- The empty store. -/
def Storage.empty : Storage := ⟨0, []⟩

/-- The JS `getFactEntry(id)`. -/
def Storage.getFactEntry (s : Storage) (id : Nat) : Option FactEntry :=
  (s.facts.find? (fun f => f.1 == id)).map (fun f => f.2)

/-- The `type` discriminant of a stored fact, when it is a string. -/
def factKind (v : Value) : Option String :=
  match jsGetOwn v "type" with
  | some (.str s) => some s
  | _ => none

/-- The JS `getFactsByType(type)`: the fact objects of that type in insertion
order (an empty sequence for unknown types). -/
def Storage.getFactsByType (s : Storage) (t : String) : List Value :=
  (s.facts.filter (fun f => factKind f.2.fact == some t)).map (fun f => f.2.fact)

/-- The JS `FactStorage.assert(fact, metadata)`: requires only that `fact.type` is
a string (the empty string is accepted here; the engine wrapper is
stricter), assigns the next id, stores a copy with `_id` added, and returns
the entry. -/
def Storage.assert (s : Storage) (fact : Value) (md : FactMeta) :
    Option (Nat × FactEntry) × Storage :=
  match jsGetOwn fact "type" with
  | some (.str _) =>
    let id := s.counter + 1
    let newFact :=
      match fact with
      | .obj fs => Value.obj (setB fs "_id" (.num (.fin (id : ℚ))))
      | v => v
    let entry : FactEntry := ⟨newFact, md⟩
    (some (id, entry), ⟨id, s.facts ++ [(id, entry)]⟩)
  | _ => (none, s)

/-- The JS `FactStorage.retract(factId)`: removes the entry from the primary map
and the type index, returning it (or nothing when the id is unknown). -/
def Storage.retract (s : Storage) (id : Nat) : Option FactEntry × Storage :=
  match s.getFactEntry id with
  | none => (none, s)
  | some e => (some e, ⟨s.counter, s.facts.filter (fun f => !(f.1 == id))⟩)

/-- Patch an entry in place (the metadata write-back performed by the
engine after a logical assert from a rule context). -/
def Storage.patchMeta (s : Storage) (id : Nat) (md : FactMeta) : Storage :=
  ⟨s.counter, s.facts.map (fun f => if f.1 == id then (f.1, ⟨f.2.fact, md⟩) else f)⟩

/-- An agenda task: `\{type: 'assert'|'retract', fact\}`. -/
inductive TaskType where
  | assert : TaskType
  | retract : TaskType
deriving DecidableEq, Repr

/-- A queued task. -/
structure Task where
  ttype : TaskType
  fact : Value

/-- The `_id` of a task fact, when present and a natural number (all
engine-assigned ids are). -/
def factId (v : Value) : Option Nat :=
  match jsGetOwn v "_id" with
  | some (.num (.fin q)) =>
    if q.den == 1 && decide (0 ≤ q.num) then some q.num.toNat else none
  | _ => none

/-! ## Definitions, conditions and activations -/

/-- The action commands a modelled rule body may issue through its context:
`context.assertFact(data, \{logical:true\})`, a plain `context.assertFact`,
or `engine.retractFact`.  Arbitrary JavaScript actions are outside the
model; every claim scenario only needs these. -/
inductive ActionOp where
  | assertLogical : Value → ActionOp
  | assertPlain : Value → ActionOp
  | retractById : Nat → ActionOp

/-- A `when` condition: `lacks` and `accum` carry the fact type extracted
from the first key of their JavaScript pattern object together with that
key value pattern; `pat` is an ordinary `[\{alias: pattern\}, ...guards]`
condition. -/
inductive Condition where
  | lacks : String → Pattern → Condition
  | accum : String → Pattern → String → Option String → String → Condition
  | pat : String → Pattern → List GExpr → Condition

/-- A rule or query definition as the orchestrator stores it. -/
structure RuleDef where
  id : String
  dtype : String
  swhen : List Condition
  pre : List GExpr
  salience : Value
  action : List ActionOp

/-- An activation yielded by the condition join: the matched definition,
the final bindings and the consumed fact ids. -/
structure Activation where
  rule : RuleDef
  bindings : Bindings
  consumed : List Nat

/-- A tracked activation for truth maintenance. -/
structure TrackedActivation where
  ruleId : String
  consumed : List Nat
  produced : List Nat

/-- An accumulator registry: `accumulators[name]`, each entry being the
two-stage `op(field)(facts)` function. -/
abbrev AccRegistry := String → Option (Option String → List Value → Value)

/-- The full engine state. -/
structure Engine where
  storage : Storage
  agenda : List Task
  defs : List RuleDef
  activations : List (Nat × TrackedActivation)
  activationCounter : Nat
  accs : AccRegistry

/-! ## Condition join (`LeapEngine.#checkRule`) -/

/-- The JS `new Set(consumed)` followed by `add id`: append when not present. -/
def addConsumed (l : List Nat) (id : Nat) : List Nat :=
  if id ∈ l then l else l ++ [id]

/-- The raw `pattern.type` field of a pattern-condition pattern. -/
def patField (p : Pattern) (k : String) : Option Pattern :=
  match p with
  | .obj fs => (fs.find? (fun f => f.1 == k)).map (fun f => f.2)
  | _ => none

/-- Truthiness of a raw pattern value (for `pattern.type || ...`):
wildcard symbols and predicate functions are truthy, strings by
non-emptiness, literals by value. -/
def patTruthy : Pattern → Bool
  | .val v => jsTruthy v
  | .str s => !(s == "")
  | _ => true

/-- The storage key a raw `pattern.type` value selects: only a string can
equal a (string) map key, so every other value reads an empty candidate
sequence. -/
def patKey : Pattern → Option String
  | .str s => some s
  | _ => none

/-- The JS `const typeToQuery = pattern.type || (factAlias.startsWith('?') ? null
: factAlias)`. -/
def typeToQuery (alias0 : String) (p : Pattern) : Option String :=
  match patField p "type" with
  | some tp =>
    if patTruthy tp then patKey tp
    else if strStartsWith alias0 "?" then none else some alias0
  | none => if strStartsWith alias0 "?" then none else some alias0

/-- A successful-match test against one fact (fuel exhaustion of the
matcher — divergence in JavaScript — counts as no match). -/
def matchesFact (fm : Nat) (p : Pattern) (f : Value) (b : Bindings) : Bool :=
  match jsMatch fm p f b with
  | some (true, _) => true
  | _ => false

/-- Alias post-binding: bind the alias and its `?`-prefixed twin to the
whole matched fact, each only when its current binding is falsy (the
source tests `!currentBindings[alias]`). -/
def bindAlias (alias0 : String) (fact : Value) (b : Bindings) : Bindings :=
  if alias0 == "" then b
  else
    let b1 := if jsTruthy (lookupB b alias0) then b else setB b alias0 fact
    let varAlias := if strStartsWith alias0 "?" then alias0 else "?" ++ alias0
    if jsTruthy (lookupB b1 varAlias) then b1 else setB b1 varAlias fact

/-- Condition guards: `guards.every(g => #executeGuard(g, bindings, id))`
inside a try/catch.  `none` models a thrown guard error (the catch skips
the candidate); otherwise the conjunction of the truthiness of the guard
values. -/
def guardsPass (gf : Nat) (gs : List GExpr) (b : Bindings) (rid : String) :
    Option Bool :=
  gs.foldl
    (fun acc g =>
      match acc with
      | none => none
      | some false => some false
      | some true =>
        match execGuard gf g b (some rid) with
        | (.error _, _) => none
        | (.ok v, _) => some (jsTruthy v))
    (some true)

/-- A match result of the condition join: final bindings plus the consumed
fact-id set. -/
structure MatchRes where
  bindings : Bindings
  consumed : List Nat

/-- The per-candidate body of the pattern-condition loop, parameterised by
the recursive continuation `k` over the remaining conditions. -/
def patStep (fm gf : Nat) (rid : String) (alias0 : String) (p : Pattern)
    (guards : List GExpr) (k : Bindings → List Nat → List MatchRes)
    (b : Bindings) (consumed : List Nat) (fact : Value) : List MatchRes :=
  if !isObjectLike fact then []
  else
    match jsMatch fm p fact b with
    | some (true, b1) =>
      let b2 := bindAlias alias0 fact b1
      (match guardsPass gf guards b2 rid with
      | some true =>
        (match factId fact with
        | some cid => k b2 (addConsumed consumed cid)
        | none => k b2 consumed)
      | _ => [])
    | _ => []

/-- The JS `#checkRule(ruleOrQuery, whenConditions, initialBindings, consumed)`:
the recursive condition join.  An empty condition list yields the bindings
and consumed set; `lacks` fails the branch when any fact of its type
matches and otherwise continues unchanged; `accum` aggregates the matching
facts and binds the target variable (an unknown accumulator name throws in
the source, killing the whole generator — modelled as no results, and every
theorem about accumulators assumes a registered name); a pattern condition
forks one branch per matching candidate fact. -/
def checkRule (fm gf : Nat) (st : Storage) (acc : AccRegistry) (rid : String) :
    List Condition → Bindings → List Nat → List MatchRes
  | [], b, consumed => [⟨b, consumed⟩]
  | .lacks ftype p :: rest, b, consumed =>
    if (st.getFactsByType ftype).any (fun f => matchesFact fm p f b) then []
    else checkRule fm gf st acc rid rest b consumed
  | .accum ftype p accName onField into :: rest, b, consumed =>
    let source := (st.getFactsByType ftype).filter (fun f => matchesFact fm p f b)
    match acc accName with
    | none => []
    | some fn =>
      checkRule fm gf st acc rid rest (setB b into (fn onField source)) consumed
  | .pat alias0 p guards :: rest, b, consumed =>
    ((typeToQuery alias0 p).elim [] st.getFactsByType).flatMap
      (patStep fm gf rid alias0 p guards
        (fun b2 c2 => checkRule fm gf st acc rid rest b2 c2) b consumed)

/-- The JS `#findMatches(task)`: joins every non-query definition against working
memory from scratch (the task itself is not consulted) and concatenates
the activations in definition order. -/
def findMatches (fm gf : Nat) (e : Engine) : List Activation :=
  e.defs.flatMap (fun r =>
    if r.dtype == "query" then []
    else (checkRule fm gf e.storage e.accs r.id r.swhen [] []).map
      (fun m => ⟨r, m.bindings, m.consumed⟩))

/-! ## Conflict resolution (`SalienceConflictResolver.resolve`) -/

/-- The salience read: a number-typed salience is used as-is, anything else
(absent, i.e. undefined, or non-numeric) counts as 0. -/
def effectiveSalience (a : Activation) : JSNum :=
  match a.rule.salience with
  | .num n => n
  | _ => JSNum.fin 0

/-- The grouping key `String(salience)`: negative zero prints as "0", so it
collapses onto positive zero; NaN keeps its own key. -/
def salienceKey (n : JSNum) : JSNum :=
  match n with
  | .negZero => .fin 0
  | m => m

/-- Append an activation to its salience group, keeping group insertion
order (one object property per distinct key string). -/
def insertGroup : List (JSNum × List Activation) → JSNum → Activation →
    List (JSNum × List Activation)
  | [], k, a => [(k, [a])]
  | g :: gs, k, a =>
    if g.1 == k then (g.1, g.2 ++ [a]) :: gs else g :: insertGroup gs k a

/-- The `reduce` that groups activations by salience. -/
def buildGroups (acts : List Activation) : List (JSNum × List Activation) :=
  acts.foldl (fun gs a => insertGroup gs (salienceKey (effectiveSalience a)) a) []

/-- Binary `Math.max`: NaN propagates, otherwise the numeric maximum. -/
def jsMaxN (a b : JSNum) : JSNum :=
  if jsIsNan a || jsIsNan b then .nan
  else if decide (jsq a < jsq b) then b else a

/-- The JS `Math.max(...levels)` over a non-empty list (the empty case, minus
infinity, cannot arise: the resolver reaches it only with at least two
activations). -/
def maxLevels : List JSNum → JSNum
  | [] => .nan
  | x :: rest => rest.foldl jsMaxN x

/-- The JS `SalienceConflictResolver.resolve`: empty input gives null, a single
activation is returned as-is, otherwise the first activation of the
highest-salience group. -/
def resolve (acts : List Activation) : Option Activation :=
  match acts with
  | [] => none
  | [a] => some a
  | _ =>
    let groups := buildGroups acts
    let highest := maxLevels (groups.map (fun g => g.1))
    match groups.find? (fun g => g.1 == salienceKey highest) with
    | some g => g.2.head?
    | none => none

/-! ## Engine operations and run loop (`LeapEngine`) -/

/-- JavaScript whitespace for `String.prototype.trim`, restricted to the
common characters (space, tab, newline, carriage return). -/
def isJsWS (c : Char) : Bool :=
  c == ' ' || c == '\t' || c == '\n' || c == '\r'

/-- The JS `s.trim()`. -/
def strTrim (s : String) : String :=
  String.mk (((s.data.dropWhile isJsWS).reverse.dropWhile isJsWS).reverse)

/-- The JS `LeapEngine.assertFact(factData)`: rejects a missing, non-string, or
blank (after trim) `type` without storing; otherwise stores through
`FactStorage.assert` with empty metadata and pushes an assert task.  No
`deftemplate` registry is loaded in the module as shipped (`getTemplate` is
undefined), so the schema-validation block is a no-op.  Returns the stored
fact and its id. -/
def Engine.assertFactE (e : Engine) (factData : Value) :
    Option (Value × Nat) × Engine :=
  match jsGetOwn factData "type" with
  | some (.str t) =>
    if strTrim t == "" then (none, e)
    else
      match e.storage.assert factData ⟨false, none⟩ with
      | (some (id, entry), st2) =>
        (some (entry.fact, id),
          { e with storage := st2,
                   agenda := e.agenda ++ [⟨.assert, entry.fact⟩] })
      | (none, st2) => (none, { e with storage := st2 })
  | _ => (none, e)

/-- The JS `LeapEngine.retractFact(factId)`: retract from storage and, when a fact
was actually removed, push a retract task carrying the removed fact. -/
def Engine.retractFactE (e : Engine) (id : Nat) : Engine :=
  match e.storage.retract id with
  | (some entry, st2) =>
    { e with storage := st2, agenda := e.agenda ++ [⟨.retract, entry.fact⟩] }
  | (none, st2) => { e with storage := st2 }

/-- One produced-fact step of `#truthMaintenance`: retract the produced
fact when it still exists, is marked logical, and carries this
activation's identity as its producer. -/
def tmRetractStep (aid : Nat) (acc : Engine) (pid : Nat) : Engine :=
  match acc.storage.getFactEntry pid with
  | some entry =>
    if entry.metadata.logical && entry.metadata.producedBy == some aid then
      acc.retractFactE pid
    else acc
  | none => acc

/-- One invalidated activation of `#truthMaintenance`: re-fetch the record,
retract every qualifying produced fact (each retraction enqueues a retract
task through `retractFact`), then delete the record. -/
def tmOne (e : Engine) (aid : Nat) : Engine :=
  match e.activations.find? (fun a => a.1 == aid) with
  | none => e
  | some (_, act) =>
    let e2 := act.produced.foldl (tmRetractStep aid) e
    { e2 with activations := e2.activations.filter (fun a => !(a.1 == aid)) }

/-- The JS `#truthMaintenance(retractedFactId)`: collect the activations whose
consumed set contains the retracted id (in tracking order), then process
each with `tmOne`.  Cascades re-enter through the agenda, not through
recursion here. -/
def truthMaintenance (e : Engine) (fid : Nat) : Engine :=
  (e.activations.filter (fun a => fid ∈ a.2.consumed)).foldl
    (fun acc a => tmOne acc a.1) e

/-- Run the modelled action commands of a fired rule under its context,
accumulating the produced fact ids.  A logical assert ignores the metadata
argument in `assertFact` (the engine patches the entry afterwards through
`getFactEntry`), which nets out to the metadata written here. -/
def execActionOps (aid : Nat) :
    Engine → List ActionOp → List Nat → Engine × List Nat
  | e, [], produced => (e, produced)
  | e, .assertLogical v :: rest, produced =>
    (match e.assertFactE v with
    | (some (_, id), e2) =>
      execActionOps aid
        { e2 with storage := e2.storage.patchMeta id ⟨true, some aid⟩ }
        rest (addConsumed produced id)
    | (none, e2) => execActionOps aid e2 rest produced)
  | e, .assertPlain v :: rest, produced =>
    (match e.assertFactE v with
    | (some (_, id), e2) => execActionOps aid e2 rest (addConsumed produced id)
    | (none, e2) => execActionOps aid e2 rest produced)
  | e, .retractById id :: rest, produced =>
    execActionOps aid (e.retractFactE id) rest produced

/-- The pre-condition check: `rule.pre.every(...)` where each guard is
evaluated in its own try/catch, a thrown error counting as false and the
result being coerced to boolean. -/
def preCheck (gf : Nat) (r : RuleDef) (b : Bindings) : Bool :=
  r.pre.all (fun g =>
    match execGuard gf g b (some r.id) with
    | (.ok v, _) => jsTruthy v
    | (.error _, _) => false)

/-- Fire an activation: allocate the next activation id, run the action
(collecting produced ids), and record the tracked activation.  The source
registers the record before running the action, but the record holds the
very `Set` object the context keeps mutating, so the final contents are
those collected here. -/
def fire (e : Engine) (act : Activation) : Engine :=
  let aid := e.activationCounter + 1
  let (e2, produced) :=
    execActionOps aid { e with activationCounter := aid } act.rule.action []
  { e2 with
      activations := e2.activations ++ [(aid, ⟨act.rule.id, act.consumed, produced⟩)] }

/-- One iteration of the `run()` loop on a non-empty agenda: shift the next
task; a retract task runs truth maintenance on the fact id (a missing id
invalidates nothing, since consumed sets only hold numbers); an assert task
matches all rules, resolves one activation, checks its pre-conditions and
fires it. -/
def runStep (fm gf : Nat) (e : Engine) : Engine :=
  match e.agenda with
  | [] => e
  | task :: rest =>
    let e1 := { e with agenda := rest }
    match task.ttype with
    | .retract =>
      match factId task.fact with
      | some fid => truthMaintenance e1 fid
      | none => e1
    | .assert =>
      match resolve (findMatches fm gf e1) with
      | none => e1
      | some act =>
        if preCheck gf act.rule act.bindings then fire e1 act else e1

/-- Drain the agenda to quiescence, bounded by fuel (each stored fact can
be retracted at most once, so any fuel exceeding the agenda plus the
reachable task count suffices for the claim scenarios). -/
def runLoop (fm gf : Nat) : Nat → Engine → Engine
  | 0, e => e
  | n + 1, e =>
    match e.agenda with
    | [] => e
    | _ :: _ => runLoop fm gf n (runStep fm gf e)

/-! ## Query result ordering (`LeapEngine.queryAll`) -/

/-- The JS `key.split('.')`. -/
def splitDotAux : List Char → List Char → List (List Char)
  | [], cur => [cur.reverse]
  | c :: rest, cur =>
    if c == '.' then cur.reverse :: splitDotAux rest []
    else splitDotAux rest (c :: cur)

/-- The JS `key.split('.')` on a string. -/
def strSplitDot (s : String) : List String :=
  (splitDotAux s.data []).map String.mk

/-- The JS `#resolvePath(object, pathArray)`: walk the keys through the object,
yielding `undefined` as soon as a step is not an object or the key is
absent.  The `?`-variable special case reads the same own property, so both
branches reduce to an own-property read. -/
def resolvePathKeys : Value → List String → Value
  | v, [] => v
  | v, k :: rest =>
    if isObjectLike v then resolvePathKeys ((jsGetOwn v k).getD .undef) rest
    else resolvePathKeys .undef rest

/-- The abstract relational comparison used by the sort comparator, for the
operand shapes the engine documents for order keys (numbers and strings).
Mixed or composite operands are modelled as incomparable, falling through
to the comparator result 0. -/
def jsLtV : Value → Value → Bool
  | .num a, .num b => jsNumLt a b
  | .str a, .str b => decide (a < b)
  | _, _ => false

/-- The `queryAll`/`queryOne` orderBy comparator over result rows: an
undefined key value sorts after defined ones ascending and before them
descending, strict equality gives a tie, otherwise the relational
comparisons decide, with a final fallback tie. -/
def sortCmp (keys : List String) (asc : Bool) (a b : Bindings) : Int :=
  match resolvePathKeys (.obj a) keys, resolvePathKeys (.obj b) keys with
  | .undef, .undef => 0
  | .undef, _ => if asc then 1 else -1
  | _, .undef => if asc then -1 else 1
  | va, vb =>
    if jsStrictEq va vb then 0
    else if jsLtV va vb then (if asc then -1 else 1)
    else if jsLtV vb va then (if asc then 1 else -1)
    else 0

/-- Stable insertion preserving the relative order of ties: the incoming
element goes before the first resident that does not strictly precede it. -/
def insertSorted (cmp : Bindings → Bindings → Int) (x : Bindings) :
    List Bindings → List Bindings
  | [] => [x]
  | y :: ys =>
    if cmp x y ≤ 0 then x :: y :: ys else y :: insertSorted cmp x ys

/-- A stable comparator sort.  ECMAScript requires `Array.prototype.sort`
to be stable and, for a consistent comparator, the stable sorted order is
unique, so this insertion sort is the behaviour of the source for every
input the ordering theorems quantify over. -/
def stableSortBy (cmp : Bindings → Bindings → Int) : List Bindings → List Bindings
  | [] => []
  | x :: xs => insertSorted cmp x (stableSortBy cmp xs)

/-- The orderBy block of `queryAll` (and `queryOne`): sort the materialised
result rows by the comparator for the requested key and direction
(`direction === 'asc'` selects ascending; anything else is the descending
branch). -/
def sortResults (key : String) (direction : String) (rows : List Bindings) :
    List Bindings :=
  stableSortBy (sortCmp (strSplitDot key) (direction == "asc")) rows

/-! ## Concrete scenario fixtures -/

/-- A stored fact `\{type:'T', n:0, _id:1\}` whose `n` feeds a divisor. -/
def factT0 : Value :=
  .obj [("type", .str "T"), ("n", Value.qnum 0), ("_id", Value.qnum 1)]

/-- A stored fact `\{type:'T', n:5, _id:2\}`. -/
def factT5 : Value :=
  .obj [("type", .str "T"), ("n", Value.qnum 5), ("_id", Value.qnum 2)]

/-- A pattern condition on `T` facts guarded by `['/', 10, '?n']`. -/
def divCond : Condition :=
  .pat "f" (.obj [("type", .str "T"), ("n", .str "?n")])
    [.call (.str "/") [.val (Value.qnum 10), .val (.str "?n")]]

/-- A rule with the division guard and an empty action. -/
def divRule : RuleDef := ⟨"divRule", "rule", [divCond], [], .undef, []⟩

/-- Working memory holding both `T` facts. -/
def divStorage : Storage :=
  ⟨2, [(1, ⟨factT0, ⟨false, none⟩⟩), (2, ⟨factT5, ⟨false, none⟩⟩)]⟩

/-- An engine with the division rule and two pending assert tasks. -/
def divEngine : Engine :=
  ⟨divStorage, [⟨.assert, factT5⟩, ⟨.assert, factT5⟩], [divRule], [], 0,
    fun _ => none⟩

/-- Whether a result row has an undefined sort-key value for the given
orderBy key. -/
def undefKey (key : String) (r : Bindings) : Bool :=
  match resolvePathKeys (.obj r) (strSplitDot key) with
  | .undef => true
  | _ => false

/-- A list that splits into a block where `u` is false followed by a block
where `u` is true. -/
def IsSplit (u : Bindings → Bool) (l : List Bindings) : Prop :=
  ∃ A B, l = A ++ B ∧ (∀ r ∈ A, u r = false) ∧ (∀ r ∈ B, u r = true)

/-- The salience grouping key of an activation (`String(salience)` in the
reduce). -/
def actKey (a : Activation) : JSNum := salienceKey (effectiveSalience a)

/-- Group membership lookup by key. -/
def groupLookup (gs : List (JSNum × List Activation)) (k : JSNum) :
    Option (List Activation) :=
  (gs.find? (fun g => g.1 == k)).map (fun g => g.2)

/-- The numeric value of an activation salience in the claim's terms. -/
def salQ (a : Activation) : ℚ := jsq (effectiveSalience a)

/-- The numerically largest effective salience of an activation list
(0 for the empty list, which the resolver never consults). -/
def maxSalQ : List Activation → ℚ
  | [] => 0
  | a :: rest => rest.foldl (fun m x => max m (salQ x)) (salQ a)

/-- The truth-maintenance scenario rule: on a fact of type `A` (and no `B`
present, which stops refiring), logically assert a `B`. -/
def tmRule : RuleDef :=
  ⟨"tmRule", "rule",
    [.pat "a" (.obj [("type", .str "A")]) [], .lacks "B" (.obj [])],
    [], .undef, [.assertLogical (.obj [("type", .str "B")])]⟩

/-- The empty engine holding only the scenario rule. -/
def tmEngine0 : Engine := ⟨Storage.empty, [], [tmRule], [], 0, fun _ => none⟩

/-- The engine after asserting `\{type:'A'\}` and draining to quiescence:
the rule has fired once, logically producing the `B` fact. -/
def tmAfterAssert : Engine :=
  runLoop 5 3 10 (tmEngine0.assertFactE (.obj [("type", .str "A")])).2

/-- The engine after then retracting fact `A` (id 1) and draining again. -/
def tmFinal : Engine := runLoop 5 3 10 (tmAfterAssert.retractFactE 1)

/-! ## Supporting lemmas -/

theorem ofValue_undef : Pattern.ofValue .undef = .val .undef := by
  unfold Pattern.ofValue
  rfl

theorem ofValue_null : Pattern.ofValue .null = .val .null := by
  unfold Pattern.ofValue
  rfl

theorem ofValue_bool (c : Bool) : Pattern.ofValue (.bool c) = .val (.bool c) := by
  unfold Pattern.ofValue
  rfl

theorem ofValue_num (k : JSNum) : Pattern.ofValue (.num k) = .val (.num k) := by
  unfold Pattern.ofValue
  rfl

theorem ofValue_str (s : String) : Pattern.ofValue (.str s) = .str s := by
  unfold Pattern.ofValue
  rfl

theorem objectIs_eq_iff (v w : Value) (h : v.isPrimitive = true) :
    objectIs v w = true ↔ v = w := by
  cases v <;> cases w <;> simp_all [objectIs, sameValueNum, Value.isPrimitive]
  rename_i a b
  cases a <;> cases b <;> simp [sameValueNum]

/-! ## Claim theorems -/

/-- C3: matching a variable reference against a value binds it when unbound
(`match('?x', 5, \{\}).bindings['?x'] === 5`); when the variable is already
bound, the stored value is recursively re-matched as a pattern against the
new value (a consistency check, not simple equality), so
`match('?x', 6, \{'?x': 5\})` fails and the binding for `?x` stays 5. -/
theorem claim3_variable_binding_consistency :
    (∀ fuel s v fact b, strStartsWith s "?" = true → lookupB b s = v →
        v ≠ .undef →
        jsMatch (fuel + 1) (.str s) fact b
          = jsMatch fuel (Pattern.ofValue v) fact b)
    ∧ (∀ fuel, jsMatch (fuel + 1) (.str "?x") (Value.qnum 5) []
        = some (true, [("?x", Value.qnum 5)]))
    ∧ (∀ fuel, jsMatch (fuel + 2) (.str "?x") (Value.qnum 6) [("?x", Value.qnum 5)]
        = some (false, [("?x", Value.qnum 5)])) := by
  refine ⟨?_, ?_, ?_⟩
  · intro fuel s v fact b hpre hlook hne
    show (if strStartsWith s "?" = true then
        match lookupB b s with
        | .undef => some (true, setB b s fact)
        | bound => jsMatch fuel (Pattern.ofValue bound) fact b
      else some (objectIs (.str s) fact, b)) = _
    rw [hpre, hlook]
    cases v
    · exact absurd rfl hne
    all_goals rfl
  · intro fuel
    rfl
  · intro fuel
    show jsMatch (fuel + 1) (Pattern.ofValue (Value.qnum 5)) (Value.qnum 6)
        [("?x", Value.qnum 5)] = _
    rw [Value.qnum, ofValue_num]
    exact rfl

/-- C3 witness: the consistency-recursion equation applied at the concrete
claim input. -/
theorem claim3_witness :
    jsMatch 3 (.str "?x") (Value.qnum 6) [("?x", Value.qnum 5)]
      = jsMatch 2 (Pattern.ofValue (Value.qnum 5)) (Value.qnum 6)
          [("?x", Value.qnum 5)] :=
  claim3_variable_binding_consistency.1 2 "?x" (Value.qnum 5) (Value.qnum 6)
    [("?x", Value.qnum 5)] rfl rfl (fun h => Value.noConfusion h)

/-- C9: a pattern that is none of wildcard, predicate, variable, array or
object is compared by `Object.is` (IEEE-754 same-value): for primitive
values this is exactly propositional equality in the model, NaN matches NaN,
positive zero does not match negative zero, and cross-type comparisons such
as `0` versus `false` never match.  Non-variable strings take the same final
clause. -/
theorem claim9_literal_same_value :
    (∀ fuel v fact b, jsMatch (fuel + 1) (.val v) fact b
        = some (objectIs v fact, b))
    ∧ (∀ fuel s fact b, strStartsWith s "?" = false →
        jsMatch (fuel + 1) (.str s) fact b = some (objectIs (.str s) fact, b))
    ∧ (∀ v w, v.isPrimitive = true → (objectIs v w = true ↔ v = w))
    ∧ objectIs (.num .nan) (.num .nan) = true
    ∧ objectIs (Value.qnum 0) (.num .negZero) = false
    ∧ objectIs (Value.qnum 0) (.bool false) = false := by
  refine ⟨?_, ?_, objectIs_eq_iff, rfl, rfl, rfl⟩
  · intro fuel v fact b
    rfl
  · intro fuel s fact b hpre
    show (if strStartsWith s "?" = true then
        match lookupB b s with
        | .undef => some (true, setB b s fact)
        | bound => jsMatch fuel (Pattern.ofValue bound) fact b
      else some (objectIs (.str s) fact, b)) = _
    rw [hpre]
    simp

/-- C9 witness: the final clause applied at NaN-versus-NaN, plus the
primitivity equivalence at a concrete pair. -/
theorem claim9_witness :
    jsMatch 1 (.val (.num .nan)) (.num .nan) [] = some (true, [])
      ∧ (objectIs (.str "a") (.str "a") = true ↔ Value.str "a" = .str "a") :=
  ⟨(claim9_literal_same_value.1 0 (.num .nan) (.num .nan) []).trans rfl,
    claim9_literal_same_value.2.2.1 (.str "a") (.str "a") rfl⟩

/-- C10 (implicit): a variable bound to `undefined` is indistinguishable
from an unbound variable — matching `?x` against `undefined` succeeds and
stores `undefined`, and any later occurrence of `?x` skips the consistency
check and freely rebinds, because the code tests `boundValue !== undefined`
on the stored value. -/
theorem claim10_undefined_binding_rebind :
    (∀ fuel s fact b, strStartsWith s "?" = true → lookupB b s = .undef →
        jsMatch (fuel + 1) (.str s) fact b = some (true, setB b s fact))
    ∧ (∀ fuel, jsMatch (fuel + 1) (.str "?x") .undef []
        = some (true, [("?x", .undef)]))
    ∧ (∀ fuel, jsMatch (fuel + 1) (.str "?x") (Value.qnum 5) [("?x", .undef)]
        = some (true, [("?x", Value.qnum 5)])) := by
  refine ⟨?_, fun _ => rfl, fun _ => rfl⟩
  intro fuel s fact b hpre hlook
  show (if strStartsWith s "?" = true then
      match lookupB b s with
      | .undef => some (true, setB b s fact)
      | bound => jsMatch fuel (Pattern.ofValue bound) fact b
    else some (objectIs (.str s) fact, b)) = _
  rw [hpre, hlook]
  exact rfl

/-- C10 witness: rebinding over an undefined-valued binding at a concrete
input. -/
theorem claim10_witness :
    jsMatch 1 (.str "?x") (Value.qnum 7) [("?x", .undef)]
      = some (true, setB [("?x", .undef)] "?x" (Value.qnum 7)) :=
  claim10_undefined_binding_rebind.1 0 "?x" (Value.qnum 7) [("?x", .undef)]
    rfl rfl

/-- C4: sequence destructuring — with exactly one rest marker the candidate
must be at least head+tail long, head and tail match positionally from front
and back and the middle slice binds to the rest variable
(`['?a','...?mid','?b']` against `[1,2,3,4,5]` gives `?a=1`, `?mid=[2,3,4]`,
`?b=5`; against `[1]` it fails); two or more rest markers never match; with
no rest marker the lengths must be exactly equal and elements match
positionally. -/
theorem claim4_sequence_destructuring :
    (∀ fuel, jsMatch (fuel + 2) (.arr [.str "?a", .str "...?mid", .str "?b"])
        (.arr [Value.qnum 1, Value.qnum 2, Value.qnum 3, Value.qnum 4,
          Value.qnum 5]) []
        = some (true, [("?a", Value.qnum 1), ("?b", Value.qnum 5),
            ("?mid", .arr [Value.qnum 2, Value.qnum 3, Value.qnum 4])]))
    ∧ (∀ fuel, jsMatch (fuel + 1) (.arr [.str "?a", .str "...?mid", .str "?b"])
        (.arr [Value.qnum 1]) [] = some (false, []))
    ∧ (∀ fuel ps xs b, 2 ≤ (ps.filter isRestMarker).length →
        jsMatch (fuel + 1) (.arr ps) (.arr xs) b = some (false, b))
    ∧ (∀ fuel ps xs b, (ps.filter isRestMarker).length = 1 →
        xs.length + 1 < ps.length →
        jsMatch (fuel + 1) (.arr ps) (.arr xs) b = some (false, b))
    ∧ (∀ fuel ps xs b, (ps.filter isRestMarker).length = 0 →
        ps.length ≠ xs.length →
        jsMatch (fuel + 1) (.arr ps) (.arr xs) b = some (false, b))
    ∧ (∀ fuel ps xs b, (ps.filter isRestMarker).length = 0 →
        ps.length = xs.length →
        jsMatch (fuel + 1) (.arr ps) (.arr xs) b
          = matchSeq (fun p v b2 => jsMatch fuel p v b2) (ps.zip xs) b) := by
  have hsome : ∀ (ps : List Pattern), 0 < (ps.filter isRestMarker).length →
      ps.findIdx? isRestMarker = some (ps.findIdx isRestMarker) := by
    intro ps h
    apply List.findIdx?_eq_some_of_exists
    have hne : ps.filter isRestMarker ≠ [] := by
      intro h0
      rw [h0] at h
      simp at h
    obtain ⟨x, hx⟩ := List.exists_mem_of_ne_nil _ hne
    exact ⟨x, (List.mem_filter.mp hx).1, (List.mem_filter.mp hx).2⟩
  have hnone : ∀ (ps : List Pattern), (ps.filter isRestMarker).length = 0 →
      ps.findIdx? isRestMarker = none := by
    intro ps h
    rw [List.findIdx?_eq_none_iff]
    intro x hx
    by_contra hcon
    have : x ∈ ps.filter isRestMarker :=
      List.mem_filter.mpr ⟨hx, by simpa using hcon⟩
    rw [List.length_eq_zero] at h
    simp [h] at this
  refine ⟨fun _ => rfl, fun _ => rfl, ?_, ?_, ?_, ?_⟩
  · intro fuel ps xs b h
    simp only [jsMatch, hsome ps (by omega)]
    rw [if_pos (by omega)]
  · intro fuel ps xs b h hlen
    have hidx : ps.findIdx isRestMarker < ps.length :=
      List.findIdx_lt_length_of_exists
      (by
        have hne : ps.filter isRestMarker ≠ [] := by
          intro h0
          rw [h0] at h
          simp at h
        obtain ⟨x, hx⟩ := List.exists_mem_of_ne_nil _ hne
        exact ⟨x, (List.mem_filter.mp hx).1, (List.mem_filter.mp hx).2⟩)
    simp only [jsMatch, hsome ps (by omega)]
    rw [if_neg (by omega), if_pos]
    simp only [List.length_take, List.length_drop]
    omega
  · intro fuel ps xs b h hlen
    simp only [jsMatch, hnone ps h]
    rw [if_pos hlen]
  · intro fuel ps xs b h hlen
    simp only [jsMatch, hnone ps h]
    rw [if_neg (by omega)]

/-- C4 witness: the two-rest-marker clause applied at a concrete pattern. -/
theorem claim4_witness :
    jsMatch 1 (.arr [.str "...?u", .str "...?v"]) (.arr [Value.qnum 1]) []
      = some (false, []) :=
  claim4_sequence_destructuring.2.2.1 0 [.str "...?u", .str "...?v"]
    [Value.qnum 1] [] (by decide)

/-- Writing one key leaves every other key lookup unchanged. -/
theorem find?_setB_ne (fs : Bindings) (k k2 : String) (v : Value)
    (h : k ≠ k2) :
    (setB fs k v).find? (fun f => f.1 == k2) = fs.find? (fun f => f.1 == k2) := by
  have hkk : (k == k2) = false := by simpa using h
  induction fs with
  | nil => simp [setB, List.find?, hkk]
  | cons kv rest ih =>
    by_cases hk : kv.1 = k
    · have h2 : (kv.1 == k2) = false := by rw [hk]; exact hkk
      simp [setB, hk, List.find?, hkk, h2]
    · simp only [setB, beq_iff_eq, hk, if_false, List.find?_cons]
      cases hkv2 : (kv.1 == k2) <;> simp [ih]

/-- Adding the `_id` field does not change the `type` discriminant. -/
theorem factKind_setB_id (fs : Bindings) (v : Value) :
    factKind (.obj (setB fs "_id" v)) = factKind (.obj fs) := by
  simp [factKind, jsGetOwn, find?_setB_ne fs "_id" "type" v (by decide)]

/-- C7 counterexample: `FactStorage.assert` accepts an empty-string kind —
the fact is stored and its entry is returned, while the claim says an empty
kind is rejected and not stored. -/
theorem claim7_counterexample :
    ((Storage.empty.assert (.obj [("type", .str "")]) ⟨false, none⟩).1.isSome
        = true)
    ∧ (((Storage.empty.assert (.obj [("type", .str "")])
          ⟨false, none⟩).2.getFactEntry 1).isSome = true) :=
  ⟨rfl, rfl⟩

/-- C7 (amended): `FactStorage.assert` requires the kind to be a string —
absent or non-string kinds are rejected without storing, while any string
kind (the empty string included) gets the next identity, is stored as a
copy with `_id` added, is indexed under its kind, and the entry is
returned; the stricter non-blank check lives in `LeapEngine.assertFact`,
which rejects absent, non-string, and blank-after-trim kinds before the
store is reached and otherwise stores and enqueues an assert task. -/
theorem claim7_fact_store_assert :
    (∀ st fact md, factKind fact = none → Storage.assert st fact md = (none, st))
    ∧ (∀ (st : Storage) (fs : Bindings) t md,
        jsGetOwn (.obj fs) "type" = some (.str t) →
        Storage.assert st (.obj fs) md =
          (some (st.counter + 1,
            ⟨.obj (setB fs "_id" (.num (.fin ((st.counter + 1 : Nat) : ℚ)))), md⟩),
           ⟨st.counter + 1,
            st.facts ++ [(st.counter + 1,
              ⟨.obj (setB fs "_id" (.num (.fin ((st.counter + 1 : Nat) : ℚ)))), md⟩)]⟩))
    ∧ (∀ (st : Storage) (fs : Bindings) t md,
        jsGetOwn (.obj fs) "type" = some (.str t) →
        (Storage.assert st (.obj fs) md).2.getFactsByType t =
          st.getFactsByType t
            ++ [.obj (setB fs "_id" (.num (.fin ((st.counter + 1 : Nat) : ℚ))))])
    ∧ (∀ (st : Storage) (fs : Bindings) t md,
        jsGetOwn (.obj fs) "type" = some (.str t) →
        (∀ f ∈ st.facts, f.1 ≠ st.counter + 1) →
        (Storage.assert st (.obj fs) md).2.getFactEntry (st.counter + 1) =
          some ⟨.obj (setB fs "_id" (.num (.fin ((st.counter + 1 : Nat) : ℚ)))), md⟩)
    ∧ (∀ (e : Engine) fact, factKind fact = none →
        Engine.assertFactE e fact = (none, e))
    ∧ (∀ (e : Engine) fact t, jsGetOwn fact "type" = some (.str t) →
        strTrim t = "" → Engine.assertFactE e fact = (none, e))
    ∧ (∀ (e : Engine) (fs : Bindings) t,
        jsGetOwn (.obj fs) "type" = some (.str t) → strTrim t ≠ "" →
        Engine.assertFactE e (.obj fs) =
          (some (.obj (setB fs "_id" (.num (.fin ((e.storage.counter + 1 : Nat) : ℚ)))),
            e.storage.counter + 1),
           { e with
              storage := ⟨e.storage.counter + 1,
                e.storage.facts ++ [(e.storage.counter + 1,
                  ⟨.obj (setB fs "_id"
                    (.num (.fin ((e.storage.counter + 1 : Nat) : ℚ)))), ⟨false, none⟩⟩)]⟩,
              agenda := e.agenda ++ [⟨.assert,
                .obj (setB fs "_id"
                  (.num (.fin ((e.storage.counter + 1 : Nat) : ℚ))))⟩] })) := by
  have hstr : ∀ (st : Storage) (fs : Bindings) t md,
      jsGetOwn (.obj fs) "type" = some (.str t) →
      Storage.assert st (.obj fs) md =
        (some (st.counter + 1,
          ⟨.obj (setB fs "_id" (.num (.fin ((st.counter + 1 : Nat) : ℚ)))), md⟩),
         ⟨st.counter + 1,
          st.facts ++ [(st.counter + 1,
            ⟨.obj (setB fs "_id" (.num (.fin ((st.counter + 1 : Nat) : ℚ)))), md⟩)]⟩) := by
    intro st fs t md h
    simp [Storage.assert, h]
  refine ⟨?_, hstr, ?_, ?_, ?_, ?_, ?_⟩
  · intro st fact md h
    unfold Storage.assert
    unfold factKind at h
    cases hg : jsGetOwn fact "type" with
    | none => simp [hg]
    | some v =>
      cases v <;> simp_all [hg]
  · intro st fs t md h
    rw [hstr st fs t md h]
    have hk2 : factKind
        (Value.obj (setB fs "_id" (.num (.fin ((st.counter + 1 : Nat) : ℚ)))))
        = some t := by
      rw [factKind_setB_id]
      simp [factKind, h]
    simp only [Storage.getFactsByType, List.filter_append, List.map_append]
    have hcast : ((st.counter : ℚ) + 1) = ((st.counter + 1 : Nat) : ℚ) := by
      push_cast
      ring
    congr 1
    push_cast at hk2 ⊢
    simp [hk2]
  · intro st fs t md h hid
    rw [hstr st fs t md h]
    simp only [Storage.getFactEntry, List.find?_append]
    have hnone : st.facts.find? (fun f => f.1 == st.counter + 1) = none := by
      rw [List.find?_eq_none]
      intro x hx
      simpa using hid x hx
    simp [hnone, List.find?]
  · intro e fact h
    unfold Engine.assertFactE
    unfold factKind at h
    cases hg : jsGetOwn fact "type" with
    | none => simp [hg]
    | some v =>
      cases v <;> simp_all [hg]
  · intro e fact t h hblank
    simp [Engine.assertFactE, h, hblank]
  · intro e fs t h hblank
    simp only [Engine.assertFactE, h]
    rw [if_neg (by simpa using hblank)]
    rw [hstr e.storage fs t ⟨false, none⟩ h]

/-- C7 witness: the engine-level accept path at a concrete fact. -/
theorem claim7_witness :
    Engine.assertFactE ⟨Storage.empty, [], [], [], 0, fun _ => none⟩
        (.obj [("type", .str "user")]) =
      (some (.obj [("type", .str "user"), ("_id", Value.qnum 1)], 1),
       { storage := ⟨1, [(1, ⟨.obj [("type", .str "user"), ("_id", Value.qnum 1)],
           ⟨false, none⟩⟩)]⟩,
         agenda := [⟨.assert, .obj [("type", .str "user"), ("_id", Value.qnum 1)]⟩],
         defs := [], activations := [], activationCounter := 0,
         accs := fun _ => none }) := by
  have h := claim7_fact_store_assert.2.2.2.2.2.2
    ⟨Storage.empty, [], [], [], 0, fun _ => none⟩
    [("type", .str "user")] "user" rfl (by decide)
  simpa [Storage.empty, setB, Value.qnum] using h

/-- C8: during the condition join, `lacks` and accumulator conditions never
touch the consumed-fact-identity set — over a condition list with no
pattern condition every yielded consumed set equals the incoming one; a
zero-match `lacks` continues into the remaining conditions with bindings
and consumed set unchanged; an accumulator binds exactly its target
variable to the aggregation result and passes the consumed set through. -/
theorem claim8_join_frame_effect :
    (∀ fm gf st acc rid conds b c,
        (conds.all (fun cond => match cond with
          | Condition.pat _ _ _ => false
          | _ => true)) = true →
        ∀ r ∈ checkRule fm gf st acc rid conds b c, r.consumed = c)
    ∧ (∀ fm gf st acc rid ftype p rest b c,
        ((st.getFactsByType ftype).any (fun f => matchesFact fm p f b)) = false →
        checkRule fm gf st acc rid (.lacks ftype p :: rest) b c
          = checkRule fm gf st acc rid rest b c)
    ∧ (∀ fm gf st (acc : AccRegistry) rid ftype p accName onField into rest b c fn,
        acc accName = some fn →
        checkRule fm gf st acc rid
            (.accum ftype p accName onField into :: rest) b c
          = checkRule fm gf st acc rid rest
              (setB b into (fn onField
                ((st.getFactsByType ftype).filter (fun f => matchesFact fm p f b))))
              c) := by
  refine ⟨?_, ?_, ?_⟩
  · intro fm gf st acc rid conds
    induction conds with
    | nil =>
      intro b c _ r hr
      simp [checkRule] at hr
      rw [hr]
    | cons cond rest ih =>
      intro b c hall r hr
      simp only [List.all_cons, Bool.and_eq_true] at hall
      cases cond with
      | pat alias0 p guards => simp at hall
      | lacks ftype p =>
        simp only [checkRule] at hr
        by_cases hany :
            ((st.getFactsByType ftype).any (fun f => matchesFact fm p f b)) = true
        · simp [hany] at hr
        · simp only [hany, if_neg, Bool.false_eq_true, if_false] at hr
          exact ih b c hall.2 r (by simpa [hany] using hr)
      | accum ftype p accName onField into =>
        simp only [checkRule] at hr
        cases hacc : acc accName with
        | none => simp [hacc] at hr
        | some fn =>
          rw [hacc] at hr
          exact ih _ c hall.2 r hr
  · intro fm gf st acc rid ftype p rest b c hany
    simp [checkRule, hany]
  · intro fm gf st acc rid ftype p accName onField into rest b c fn hacc
    simp [checkRule, hacc]

/-- C8 witness: the zero-match `lacks` step on an empty store. -/
theorem claim8_witness :
    checkRule 1 1 Storage.empty (fun _ => none) "r"
        [Condition.lacks "X" .any] [] []
      = checkRule 1 1 Storage.empty (fun _ => none) "r" [] [] [] :=
  claim8_join_frame_effect.2.1 1 1 Storage.empty (fun _ => none) "r" "X"
    .any [] [] [] rfl

/-- C6: evaluating the `/` guard with a zero divisor raises an explicit
guard error (never a value such as Infinity) and reports a guard-error
event; inside the condition join the thrown error is caught, the candidate
binding is skipped as a non-match while other candidates still yield; and
the run loop keeps processing the remaining tasks (the concrete scenario
drains a two-task agenda to quiescence, firing the rule once per task on
the surviving candidate). -/
theorem claim6_division_by_zero :
    (∀ rid vx vy, isNumBool vx = true → isNumBool vy = true →
        jsNumIsZero (coerceNum vy) = true →
        applyOp rid (.str "/") [vx, vy]
          = (.error "Guard Error: Division by zero",
             [EngineEvent.guardError rid]))
    ∧ (∀ gf b rid (x y : GExpr) vx vy evs,
        resolveArgList
            (fun a => resolveGV (fun e b2 => execGuard gf e b2 none) a b false)
            [x, y] = (.ok [vx, vy], evs) →
        isNumBool vx = true → isNumBool vy = true →
        jsNumIsZero (coerceNum vy) = true →
        execGuard (gf + 1) (.call (.str "/") [x, y]) b rid
          = (.error "Guard Error: Division by zero",
             evs ++ [EngineEvent.guardError rid]))
    ∧ checkRule 5 3 divStorage (fun _ => none) "divRule" [divCond] [] []
        = [⟨[("?n", Value.qnum 5), ("f", factT5), ("?f", factT5)], [2]⟩]
    ∧ (runLoop 5 3 10 divEngine).agenda = []
    ∧ (runLoop 5 3 10 divEngine).activations.map (fun a => a.1) = [1, 2] := by
  have hdiv : ∀ (rid : Option String) vx vy, isNumBool vx = true →
      isNumBool vy = true → jsNumIsZero (coerceNum vy) = true →
      applyOp rid (.str "/") [vx, vy]
        = (.error "Guard Error: Division by zero",
           [EngineEvent.guardError rid]) := by
    intro rid vx vy hx hy hzero
    simp [applyOp, jsStrictEq, expectNumeric, expectNumeric.expectNumericEach,
      hx, hy, hzero]
  refine ⟨hdiv, ?_, ?_, ?_, ?_⟩
  · intro gf b rid x y vx vy evs hres hx hy hzero
    have hstep : execGuard (gf + 1) (.call (.str "/") [x, y]) b rid
        = ((applyOp rid (.str "/") [vx, vy]).1,
           evs ++ (applyOp rid (.str "/") [vx, vy]).2) := by
      simp only [execGuard, hres]
      norm_num [jsStrictEq]
      simp
    rw [hstep, hdiv rid vx vy hx hy hzero]
  · with_unfolding_all rfl
  · with_unfolding_all rfl
  · with_unfolding_all rfl

/-- C6 witness: the division-by-zero error at the concrete guard
`['/', 10, 0]`. -/
theorem claim6_witness :
    execGuard 1 (.call (.str "/") [.val (Value.qnum 10), .val (Value.qnum 0)])
        [] (some "r")
      = (.error "Guard Error: Division by zero",
         [EngineEvent.guardError (some "r")]) :=
  claim6_division_by_zero.2.1 0 [] (some "r") (.val (Value.qnum 10))
    (.val (Value.qnum 0)) (Value.qnum 10) (Value.qnum 0) [] rfl rfl rfl rfl

/-- Stable insertion is a permutation with the inserted element. -/
theorem insertSorted_perm (cmp : Bindings → Bindings → Int) (x : Bindings) :
    ∀ l, List.Perm (insertSorted cmp x l) (x :: l) := by
  intro l
  induction l with
  | nil => simp [insertSorted]
  | cons y ys ih =>
    by_cases h : cmp x y ≤ 0
    · simp [insertSorted, h]
    · simp only [insertSorted, h, if_false]
      exact (List.Perm.cons y ih).trans (List.Perm.swap x y ys)

/-- The stable sort is a permutation of its input. -/
theorem stableSortBy_perm (cmp : Bindings → Bindings → Int) :
    ∀ l, List.Perm (stableSortBy cmp l) l := by
  intro l
  induction l with
  | nil => simp [stableSortBy]
  | cons x xs ih =>
    exact (insertSorted_perm cmp x (stableSortBy cmp xs)).trans
      (List.Perm.cons x ih)

/-- Stable insertion decomposes as the input around the new element, with
every passed-over resident strictly preceding it. -/
theorem insertSorted_decomp (cmp : Bindings → Bindings → Int) (x : Bindings) :
    ∀ l, ∃ l1 l2, insertSorted cmp x l = l1 ++ x :: l2 ∧ l = l1 ++ l2
      ∧ ∀ w ∈ l1, ¬(cmp x w ≤ 0) := by
  intro l
  induction l with
  | nil => exact ⟨[], [], rfl, rfl, by simp⟩
  | cons y ys ih =>
    by_cases h : cmp x y ≤ 0
    · exact ⟨[], y :: ys, by simp [insertSorted, h], rfl, by simp⟩
    · obtain ⟨l1, l2, he, hl, hw⟩ := ih
      refine ⟨y :: l1, l2, ?_, by simp [hl], ?_⟩
      · simp [insertSorted, h, he]
      · intro w hwmem
        rcases List.mem_cons.mp hwmem with hwy | hw1
        · rw [hwy]; exact h
        · exact hw w hw1

/-- Inserting into a false-block/true-block split keeps the split, given
that true-class elements compare strictly after false-class ones and
false-class elements compare at or before true-class ones. -/
theorem insertSorted_isSplit (cmp : Bindings → Bindings → Int)
    (u : Bindings → Bool)
    (H1 : ∀ a c, u a = true → u c = false → 0 < cmp a c)
    (H3 : ∀ a c, u a = false → u c = true → cmp a c ≤ 0)
    (x : Bindings) :
    ∀ A B, (∀ r ∈ A, u r = false) → (∀ r ∈ B, u r = true) →
      IsSplit u (insertSorted cmp x (A ++ B)) := by
  intro A
  induction A with
  | nil =>
    intro B _ hB
    cases hux : u x with
    | true =>
      refine ⟨[], insertSorted cmp x ([] ++ B), by simp, by simp, ?_⟩
      intro r hr
      have hmem : r ∈ x :: ([] ++ B) :=
        (insertSorted_perm cmp x _).mem_iff.mp hr
      rcases List.mem_cons.mp hmem with h | h
      · rw [h]; exact hux
      · exact hB r (by simpa using h)
    | false =>
      cases B with
      | nil => exact ⟨[x], [], by simp [insertSorted], by simp [hux], by simp⟩
      | cons b bs =>
        have hle := H3 x b hux (hB b (by simp))
        refine ⟨[x], b :: bs, by simp [insertSorted, hle], by simp [hux], hB⟩
  | cons a A2 ih =>
    intro B hA hB
    have hua : u a = false := hA a (by simp)
    by_cases hle : cmp x a ≤ 0
    · cases hux : u x with
      | true => exact absurd hle (by have := H1 x a hux hua; omega)
      | false =>
        refine ⟨x :: a :: A2, B, by simp [insertSorted, hle], ?_, hB⟩
        intro r hr
        rcases List.mem_cons.mp hr with h | h
        · rw [h]; exact hux
        · exact hA r h
    · have step : insertSorted cmp x (a :: (A2 ++ B))
          = a :: insertSorted cmp x (A2 ++ B) := by
        simp [insertSorted, hle]
      obtain ⟨A3, B3, he, hfalse, htrue⟩ :=
        ih B (fun r hr => hA r (List.mem_cons_of_mem a hr)) hB
      refine ⟨a :: A3, B3, by simp [step, he], ?_, htrue⟩
      intro r hr
      rcases List.mem_cons.mp hr with h | h
      · rw [h]; exact hua
      · exact hfalse r h

/-- The stable sort of any list splits into the false block followed by
the true block, under the same comparator hypotheses. -/
theorem stableSortBy_isSplit (cmp : Bindings → Bindings → Int)
    (u : Bindings → Bool)
    (H1 : ∀ a c, u a = true → u c = false → 0 < cmp a c)
    (H3 : ∀ a c, u a = false → u c = true → cmp a c ≤ 0) :
    ∀ l, IsSplit u (stableSortBy cmp l) := by
  intro l
  induction l with
  | nil => exact ⟨[], [], rfl, by simp, by simp⟩
  | cons x xs ih =>
    obtain ⟨A, B, he, hfalse, htrue⟩ := ih
    have h2 := insertSorted_isSplit cmp u H1 H3 x A B hfalse htrue
    simpa [stableSortBy, he] using h2

/-- Every list whose members are all in one class is pairwise ordered by
the class implication. -/
theorem pairwise_of_const (u : Bindings → Bool) (v : Bool) :
    ∀ (l : List Bindings), (∀ r ∈ l, u r = v) →
      l.Pairwise (fun a c => u a = true → u c = true) := by
  intro l
  induction l with
  | nil => intro _; exact List.Pairwise.nil
  | cons a l2 ih =>
    intro h
    refine List.Pairwise.cons ?_ (ih (fun r hr => h r (List.mem_cons_of_mem a hr)))
    intro c hc ha
    have hav := h a (by simp)
    have hcv := h c (List.mem_cons_of_mem a hc)
    rw [hcv, ← hav, ha]

/-- A split list is pairwise ordered by the class implication. -/
theorem isSplit_pairwise (u : Bindings → Bool) (l : List Bindings)
    (h : IsSplit u l) :
    l.Pairwise (fun a c => u a = true → u c = true) := by
  obtain ⟨A, B, he, hfalse, htrue⟩ := h
  rw [he, List.pairwise_append]
  refine ⟨pairwise_of_const u false A hfalse, pairwise_of_const u true B htrue, ?_⟩
  intro a _ c hc _
  exact htrue c hc

/-- The stable sort preserves the relative order of any tied pair. -/
theorem stableSortBy_stable (cmp : Bindings → Bindings → Int)
    (x y : Bindings) (hxy : cmp x y = 0) :
    ∀ l, [x, y].Sublist l → [x, y].Sublist (stableSortBy cmp l) := by
  intro l
  induction l with
  | nil => intro h; simp at h
  | cons a l2 ih =>
    intro h
    cases h with
    | cons _ h2 =>
      have hs := ih h2
      obtain ⟨m1, m2, he, hl, _⟩ :=
        insertSorted_decomp cmp a (stableSortBy cmp l2)
      have hsub : (stableSortBy cmp l2).Sublist
          (insertSorted cmp a (stableSortBy cmp l2)) := by
        rw [he, hl]
        exact List.Sublist.append_left
          (List.Sublist.cons a (List.Sublist.refl m2)) m1
      exact hs.trans hsub
    | cons₂ _ h2 =>
      have hy : y ∈ stableSortBy cmp l2 :=
        (stableSortBy_perm cmp l2).mem_iff.mpr (List.singleton_sublist.mp h2)
      obtain ⟨m1, m2, he, hl, hw⟩ :=
        insertSorted_decomp cmp x (stableSortBy cmp l2)
      have hy2 : y ∈ m2 := by
        rw [hl] at hy
        rcases List.mem_append.mp hy with h1 | h1
        · exact absurd (le_of_eq hxy) (hw y h1)
        · exact h1
      have hxm : [x, y].Sublist (x :: m2) :=
        List.Sublist.cons₂ x (List.singleton_sublist.mpr hy2)
      have : [x, y].Sublist (m1 ++ x :: m2) :=
        hxm.trans (List.sublist_append_right m1 (x :: m2))
      simpa [stableSortBy, he] using this

/-- An undefined-key comparison against a defined key: the comparator
returns 1 ascending and -1 descending. -/
theorem sortCmp_undef_def (keys : List String) (asc : Bool) (a c : Bindings)
    (ha : resolvePathKeys (.obj a) keys = .undef)
    (hc : resolvePathKeys (.obj c) keys ≠ .undef) :
    sortCmp keys asc a c = if asc then 1 else -1 := by
  unfold sortCmp
  rw [ha]
  cases hv : resolvePathKeys (.obj c) keys <;> simp_all

/-- A defined-key comparison against an undefined key: the comparator
returns -1 ascending and 1 descending. -/
theorem sortCmp_def_undef (keys : List String) (asc : Bool) (a c : Bindings)
    (ha : resolvePathKeys (.obj a) keys ≠ .undef)
    (hc : resolvePathKeys (.obj c) keys = .undef) :
    sortCmp keys asc a c = if asc then -1 else 1 := by
  unfold sortCmp
  rw [hc]
  cases hv : resolvePathKeys (.obj a) keys <;> simp_all

/-- C5 counterexample: with a descending direction the comparator places an
undefined-key row before a defined-key row — the input has the defined row
first, the sorted output has the undefined row first — contradicting the
claim that undefined values sort after defined ones regardless of
direction. -/
theorem claim5_counterexample :
    sortResults "k" "desc" [[("k", Value.qnum 1)], []]
        = [[], [("k", Value.qnum 1)]]
    ∧ resolvePathKeys (.obj []) (strSplitDot "k") = .undef
    ∧ resolvePathKeys (.obj [("k", Value.qnum 1)]) (strSplitDot "k")
        = Value.qnum 1 :=
  ⟨rfl, rfl, rfl⟩

/-- C5 (amended): rows with an undefined sort-key value land after defined
ones in ascending order but before them in descending order (the
comparator flips the undefined rule together with the direction); the sort
is a permutation of its input; and tied rows (comparator 0) keep their
input order (stable sort). -/
theorem claim5_query_ordering :
    (∀ key rows, (sortResults key "asc" rows).Pairwise
        (fun a c => undefKey key a = true → undefKey key c = true))
    ∧ (∀ key rows, (sortResults key "desc" rows).Pairwise
        (fun a c => undefKey key c = true → undefKey key a = true))
    ∧ (∀ key dir rows, List.Perm (sortResults key dir rows) rows)
    ∧ (∀ key dir rows x y,
        sortCmp (strSplitDot key) (dir == "asc") x y = 0 →
        [x, y].Sublist rows → [x, y].Sublist (sortResults key dir rows)) := by
  have hundef : ∀ key r, undefKey key r = true ↔
      resolvePathKeys (.obj r) (strSplitDot key) = .undef := by
    intro key r
    unfold undefKey
    cases h : resolvePathKeys (.obj r) (strSplitDot key) <;> simp [h]
  have hundefF : ∀ key r, undefKey key r = false ↔
      resolvePathKeys (.obj r) (strSplitDot key) ≠ .undef := by
    intro key r
    rw [← Bool.not_eq_true, not_iff_not]
    exact hundef key r
  refine ⟨?_, ?_, ?_, ?_⟩
  · intro key rows
    apply isSplit_pairwise
    have hsort : sortResults key "asc" rows
        = stableSortBy (sortCmp (strSplitDot key) true) rows := rfl
    rw [hsort]
    apply stableSortBy_isSplit
    · intro a c ha hc
      rw [sortCmp_undef_def (strSplitDot key) true a c ((hundef key a).mp ha)
        ((hundefF key c).mp hc)]
      norm_num
    · intro a c ha hc
      rw [sortCmp_def_undef (strSplitDot key) true a c ((hundefF key a).mp ha)
        ((hundef key c).mp hc)]
      norm_num
  · intro key rows
    have hsort : sortResults key "desc" rows
        = stableSortBy (sortCmp (strSplitDot key) false) rows := rfl
    have hsplit := stableSortBy_isSplit (sortCmp (strSplitDot key) false)
      (fun r => !undefKey key r)
      (fun a c ha hc => by
        simp only [Bool.not_eq_true'] at ha
        simp only [Bool.not_eq_false'] at hc
        rw [sortCmp_def_undef (strSplitDot key) false a c
          ((hundefF key a).mp ha) ((hundef key c).mp hc)]
        norm_num)
      (fun a c ha hc => by
        simp only [Bool.not_eq_false'] at ha
        simp only [Bool.not_eq_true'] at hc
        rw [sortCmp_undef_def (strSplitDot key) false a c
          ((hundef key a).mp ha) ((hundefF key c).mp hc)]
        norm_num)
      rows
    have hpw := isSplit_pairwise (fun r => !undefKey key r) _ hsplit
    rw [hsort]
    refine hpw.imp ?_
    intro a c h hc
    by_contra hna
    have h1 : (!undefKey key a) = true := by
      simp [Bool.not_eq_true] at hna ⊢
      simpa using hna
    have h2 := h h1
    simp only [Bool.not_eq_true'] at h2
    rw [hc] at h2
    cases h2
  · intro key dir rows
    exact stableSortBy_perm _ rows
  · intro key dir rows x y hcmp hsub
    exact stableSortBy_stable _ x y hcmp rows hsub

/-- C5 witness: a tied pair of rows keeps its input order through the
ascending sort. -/
theorem claim5_witness :
    [[("k", Value.qnum 1), ("i", Value.qnum 1)],
     [("k", Value.qnum 1), ("i", Value.qnum 2)]].Sublist
      (sortResults "k" "asc"
        [[("k", Value.qnum 1), ("i", Value.qnum 1)],
         [("k", Value.qnum 1), ("i", Value.qnum 2)]]) :=
  claim5_query_ordering.2.2.2 "k" "asc" _
    [("k", Value.qnum 1), ("i", Value.qnum 1)]
    [("k", Value.qnum 1), ("i", Value.qnum 2)]
    (by with_unfolding_all rfl) (List.Sublist.refl _)

/-- Lookup after inserting into a salience group. -/
theorem groupLookup_insertGroup (gs : List (JSNum × List Activation))
    (k k2 : JSNum) (a : Activation) :
    groupLookup (insertGroup gs k a) k2
      = if k2 = k then some ((groupLookup gs k).getD [] ++ [a])
        else groupLookup gs k2 := by
  induction gs with
  | nil =>
    by_cases h : k2 = k
    · subst h
      simp [groupLookup, insertGroup]
    · have hkk : (k == k2) = false := beq_eq_false_iff_ne.mpr (Ne.symm h)
      simp [groupLookup, insertGroup, hkk, h]
  | cons g gs2 ih =>
    by_cases hg : g.1 = k
    · have hbeq : (g.1 == k) = true := beq_iff_eq.mpr hg
      by_cases h : k2 = k
      · subst h
        simp [groupLookup, insertGroup, hbeq, hg]
      · have h2 : (g.1 == k2) = false :=
          beq_eq_false_iff_ne.mpr (by rw [hg]; exact Ne.symm h)
        have h3 : (k == k2) = false := by
          rw [← hg]; exact h2
        simp [groupLookup, insertGroup, hbeq, h2, h3, h]
    · have hbeq : (g.1 == k) = false := beq_eq_false_iff_ne.mpr hg
      by_cases hgk2 : g.1 = k2
      · have h : ¬ k2 = k := fun hb => hg (hgk2.trans hb)
        have hbeq2 : (g.1 == k2) = true := beq_iff_eq.mpr hgk2
        simp [groupLookup, insertGroup, hbeq, hbeq2, h]
      · have hbeq2 : (g.1 == k2) = false := beq_eq_false_iff_ne.mpr hgk2
        by_cases h : k2 = k
        · simp only [h, if_true] at ih ⊢
          simp only [insertGroup, hbeq, Bool.false_eq_true, if_false,
            groupLookup, List.find?_cons, hbeq2, hbeq] at ih ⊢
          exact ih
        · simp only [h, if_false] at ih ⊢
          simp only [insertGroup, hbeq, Bool.false_eq_true, if_false,
            groupLookup, List.find?_cons, hbeq2] at ih ⊢
          exact ih

/-- Key membership after inserting into a salience group. -/
theorem mem_keys_insertGroup (gs : List (JSNum × List Activation))
    (k k2 : JSNum) (a : Activation) :
    k2 ∈ (insertGroup gs k a).map (fun g => g.1)
      ↔ k2 ∈ gs.map (fun g => g.1) ∨ k2 = k := by
  induction gs with
  | nil => simp [insertGroup]
  | cons g gs2 ih =>
    by_cases hg : g.1 = k
    · have hbeq : (g.1 == k) = true := beq_iff_eq.mpr hg
      simp only [insertGroup, hbeq, if_true, List.map_cons, List.mem_cons]
      constructor
      · intro h
        rcases h with h | h
        · exact Or.inl (Or.inl h)
        · exact Or.inl (Or.inr h)
      · intro h
        rcases h with (h | h) | h
        · exact Or.inl h
        · exact Or.inr h
        · rw [h, ← hg]; exact Or.inl rfl
    · have hbeq : (g.1 == k) = false := beq_eq_false_iff_ne.mpr hg
      simp only [insertGroup, hbeq, Bool.false_eq_true, if_false,
        List.map_cons, List.mem_cons, ih]
      tauto

/-- Folding the grouping step appends the matching activations to an
existing group. -/
theorem groupLookup_foldl_some (acts : List Activation) :
    ∀ gs k l, groupLookup gs k = some l →
      groupLookup
          (acts.foldl (fun gs a => insertGroup gs (actKey a) a) gs) k
        = some (l ++ acts.filter (fun a => actKey a == k)) := by
  induction acts with
  | nil => intro gs k l h; simpa using h
  | cons a acts2 ih =>
    intro gs k l h
    simp only [List.foldl_cons]
    by_cases hk : actKey a = k
    · have h2 : groupLookup (insertGroup gs (actKey a) a) k = some (l ++ [a]) := by
        rw [groupLookup_insertGroup]
        simp [hk, h]
      have h3 := ih (insertGroup gs (actKey a) a) k (l ++ [a]) h2
      rw [h3]
      have hbeq : (actKey a == k) = true := beq_iff_eq.mpr hk
      simp [List.filter_cons, hbeq]
    · have h2 : groupLookup (insertGroup gs (actKey a) a) k = some l := by
        rw [groupLookup_insertGroup, if_neg (fun hb => hk (Eq.symm hb))]
        exact h
      have h3 := ih (insertGroup gs (actKey a) a) k l h2
      rw [h3]
      have hbeq : (actKey a == k) = false := beq_eq_false_iff_ne.mpr hk
      simp [List.filter_cons, hbeq]

/-- Folding the grouping step creates the group of matching activations
when the key is new. -/
theorem groupLookup_foldl_none (acts : List Activation) :
    ∀ gs k, groupLookup gs k = none →
      acts.filter (fun a => actKey a == k) ≠ [] →
      groupLookup
          (acts.foldl (fun gs a => insertGroup gs (actKey a) a) gs) k
        = some (acts.filter (fun a => actKey a == k)) := by
  induction acts with
  | nil => intro gs k _ hne; simp at hne
  | cons a acts2 ih =>
    intro gs k h hne
    simp only [List.foldl_cons]
    by_cases hk : actKey a = k
    · have h2 : groupLookup (insertGroup gs (actKey a) a) k = some [a] := by
        rw [groupLookup_insertGroup]
        simp [hk, h]
      have h3 := groupLookup_foldl_some acts2 (insertGroup gs (actKey a) a) k [a] h2
      rw [h3]
      have hbeq : (actKey a == k) = true := beq_iff_eq.mpr hk
      simp [List.filter_cons, hbeq]
    · have h2 : groupLookup (insertGroup gs (actKey a) a) k = none := by
        rw [groupLookup_insertGroup, if_neg (fun hb => hk (Eq.symm hb))]
        exact h
      have hbeq : (actKey a == k) = false := beq_eq_false_iff_ne.mpr hk
      have hne2 : acts2.filter (fun a => actKey a == k) ≠ [] := by
        simpa [List.filter_cons, hbeq] using hne
      have h3 := ih (insertGroup gs (actKey a) a) k h2 hne2
      rw [h3]
      simp [List.filter_cons, hbeq]

/-- The group keys are exactly the activation salience keys. -/
theorem mem_keys_buildGroups (acts : List Activation) (k : JSNum) :
    k ∈ (buildGroups acts).map (fun g => g.1) ↔ ∃ a ∈ acts, actKey a = k := by
  have main : ∀ (acts : List Activation) gs k,
      k ∈ ((acts.foldl (fun gs a => insertGroup gs (actKey a) a) gs).map
          (fun g => g.1))
        ↔ k ∈ gs.map (fun g => g.1) ∨ ∃ a ∈ acts, actKey a = k := by
    intro acts
    induction acts with
    | nil => intro gs k; simp
    | cons a acts2 ih =>
      intro gs k
      simp only [List.foldl_cons, ih, mem_keys_insertGroup]
      constructor
      · intro h
        rcases h with (h | h) | h
        · exact Or.inl h
        · exact Or.inr ⟨a, by simp, h.symm⟩
        · obtain ⟨x, hx, hk⟩ := h
          exact Or.inr ⟨x, List.mem_cons_of_mem a hx, hk⟩
      · intro h
        rcases h with h | ⟨x, hx, hk⟩
        · exact Or.inl (Or.inl h)
        · rcases List.mem_cons.mp hx with hxa | hx2
          · exact Or.inl (Or.inr (by rw [← hk, hxa]))
          · exact Or.inr ⟨x, hx2, hk⟩
  have h2 := main acts [] k
  simpa [buildGroups] using h2

/-- A non-NaN salience key is the finite number it reads as. -/
theorem salienceKey_nonNan (n : JSNum) (h : jsIsNan n = false) :
    salienceKey n = .fin (jsq n) := by
  cases n with
  | nan => simp [jsIsNan] at h
  | negZero => rfl
  | fin q => rfl

/-- Key normalisation is idempotent. -/
theorem salienceKey_idem (n : JSNum) : salienceKey (salienceKey n) = salienceKey n := by
  cases n <;> rfl

/-- Binary `Math.max` on non-NaN operands picks one of them, stays
non-NaN and bounds both. -/
theorem jsMaxN_cases (x z : JSNum) (hx : jsIsNan x = false)
    (hz : jsIsNan z = false) :
    (jsMaxN x z = x ∨ jsMaxN x z = z)
    ∧ jsIsNan (jsMaxN x z) = false
    ∧ jsq x ≤ jsq (jsMaxN x z) ∧ jsq z ≤ jsq (jsMaxN x z) := by
  unfold jsMaxN
  rw [hx, hz]
  by_cases h : jsq x < jsq z
  · simp [h, hz, le_of_lt h]
  · simp [h, hx, le_of_not_lt h]

/-- The `Math.max` fold over non-NaN levels picks a member and bounds
every level. -/
theorem jsMaxN_foldl_spec (l : List JSNum) :
    ∀ x, jsIsNan x = false → (∀ y ∈ l, jsIsNan y = false) →
      (l.foldl jsMaxN x ∈ x :: l)
      ∧ jsIsNan (l.foldl jsMaxN x) = false
      ∧ jsq x ≤ jsq (l.foldl jsMaxN x)
      ∧ (∀ y ∈ l, jsq y ≤ jsq (l.foldl jsMaxN x)) := by
  induction l with
  | nil =>
    intro x hx _
    exact ⟨by simp, hx, le_refl _, by simp⟩
  | cons z l2 ih =>
    intro x hx hl
    have hz : jsIsNan z = false := hl z (by simp)
    obtain ⟨hmem0, hnan0, hx0, hz0⟩ := jsMaxN_cases x z hx hz
    have hrest := ih (jsMaxN x z) hnan0
      (fun y hy => hl y (List.mem_cons_of_mem z hy))
    obtain ⟨hmem, hnan, hle, hall⟩ := hrest
    simp only [List.foldl_cons]
    refine ⟨?_, hnan, le_trans hx0 hle, ?_⟩
    · rcases List.mem_cons.mp hmem with h | h
      · rw [h]
        rcases hmem0 with h2 | h2 <;> simp [h2]
      · simp [h]
    · intro y hy
      rcases List.mem_cons.mp hy with h | h
      · rw [h]; exact le_trans hz0 hle
      · exact hall y h

/-- The JS `Math.max(...levels)` over non-empty non-NaN levels is an attained
upper bound. -/
theorem maxLevels_spec (l : List JSNum) (hne : l ≠ [])
    (hnan : ∀ y ∈ l, jsIsNan y = false) :
    maxLevels l ∈ l ∧ jsIsNan (maxLevels l) = false
      ∧ ∀ y ∈ l, jsq y ≤ jsq (maxLevels l) := by
  cases l with
  | nil => exact absurd rfl hne
  | cons x rest =>
    have hx : jsIsNan x = false := hnan x (by simp)
    obtain ⟨hmem, hn, hxle, hall⟩ := jsMaxN_foldl_spec rest x hx
      (fun y hy => hnan y (List.mem_cons_of_mem x hy))
    refine ⟨hmem, hn, ?_⟩
    intro y hy
    rcases List.mem_cons.mp hy with h | h
    · rw [h]; exact hxle
    · exact hall y h

/-- The rational maximum fold is an attained upper bound. -/
theorem maxQ_foldl_spec (l : List Activation) :
    ∀ m, ((l.foldl (fun m x => max m (salQ x)) m) = m
        ∨ ∃ a ∈ l, (l.foldl (fun m x => max m (salQ x)) m) = salQ a)
      ∧ m ≤ l.foldl (fun m x => max m (salQ x)) m
      ∧ ∀ a ∈ l, salQ a ≤ l.foldl (fun m x => max m (salQ x)) m := by
  induction l with
  | nil =>
    intro m
    exact ⟨Or.inl rfl, le_refl _, by simp⟩
  | cons a l2 ih =>
    intro m
    obtain ⟨hval, hle, hall⟩ := ih (max m (salQ a))
    simp only [List.foldl_cons]
    refine ⟨?_, le_trans (le_max_left _ _) hle, ?_⟩
    · rcases hval with h | ⟨x, hx, h⟩
      · rcases max_choice m (salQ a) with h2 | h2
        · rw [h, h2]; exact Or.inl rfl
        · rw [h, h2]; exact Or.inr ⟨a, by simp, rfl⟩
      · exact Or.inr ⟨x, List.mem_cons_of_mem a hx, h⟩
    · intro x hx
      rcases List.mem_cons.mp hx with h | h
      · rw [h]; exact le_trans (le_max_right _ _) hle
      · exact hall x h

/-- The maximal effective salience of a non-empty list is attained and
bounds every member. -/
theorem maxSalQ_spec (acts : List Activation) (hne : acts ≠ []) :
    (∃ a ∈ acts, maxSalQ acts = salQ a)
      ∧ ∀ a ∈ acts, salQ a ≤ maxSalQ acts := by
  cases acts with
  | nil => exact absurd rfl hne
  | cons a rest =>
    obtain ⟨hval, hle, hall⟩ := maxQ_foldl_spec rest (salQ a)
    unfold maxSalQ
    refine ⟨?_, ?_⟩
    · rcases hval with h | ⟨x, hx, h⟩
      · exact ⟨a, by simp, h⟩
      · exact ⟨x, List.mem_cons_of_mem a hx, h⟩
    · intro x hx
      rcases List.mem_cons.mp hx with h | h
      · rw [h]; exact hle
      · exact hall x h

/-- The function `find?` returns the head of the filtered list. -/
theorem find?_eq_head?_filter (p : Activation → Bool) (l : List Activation) :
    l.find? p = (l.filter p).head? := by
  induction l with
  | nil => rfl
  | cons a l2 ih =>
    by_cases h : p a = true
    · rw [List.find?_cons_of_pos _ h, List.filter_cons_of_pos h]
      rfl
    · rw [List.find?_cons_of_neg _ h, List.filter_cons_of_neg h]
      exact ih

/-- Boolean equality of finite doubles is rational boolean equality. -/
theorem finBeq (p q : ℚ) : ((JSNum.fin p == JSNum.fin q) : Bool) = (p == q) := by
  by_cases h : p = q <;> simp [h]

/-- With no NaN salience, the resolver returns the first activation (in
input order) attaining the numerically largest effective salience. -/
theorem resolve_general (acts : List Activation) (hne : acts ≠ [])
    (hnan : ∀ x ∈ acts, jsIsNan (effectiveSalience x) = false) :
    resolve acts = acts.find? (fun x => salQ x == maxSalQ acts) := by
  cases acts with
  | nil => exact absurd rfl hne
  | cons a tail =>
    cases tail with
    | nil =>
      have hp : (salQ a == maxSalQ [a]) = true := by
        unfold maxSalQ
        simp
      simp [resolve, List.find?_cons_of_pos _ hp]
      exact rfl
    | cons b rest =>
      set L := a :: b :: rest with hL
      have hLne : L ≠ [] := by simp [hL]
      have hkeys_iff : ∀ k, k ∈ (buildGroups L).map (fun g => g.1)
          ↔ ∃ x ∈ L, actKey x = k := fun k => mem_keys_buildGroups L k
      have hmema : actKey a ∈ (buildGroups L).map (fun g => g.1) :=
        (hkeys_iff (actKey a)).mpr ⟨a, by simp [hL], rfl⟩
      have hkne : (buildGroups L).map (fun g => g.1) ≠ [] :=
        List.ne_nil_of_mem hmema
      have hknan : ∀ k ∈ (buildGroups L).map (fun g => g.1),
          jsIsNan k = false := by
        intro k hk
        obtain ⟨x, hx, hkey⟩ := (hkeys_iff k).mp hk
        rw [← hkey]
        unfold actKey
        rw [salienceKey_nonNan _ (hnan x hx)]
        rfl
      obtain ⟨hmem, hmaxnan, hbound⟩ :=
        maxLevels_spec ((buildGroups L).map (fun g => g.1)) hkne hknan
      set highest := maxLevels ((buildGroups L).map (fun g => g.1)) with hh
      obtain ⟨x0, hx0mem, hx0key⟩ := (hkeys_iff highest).mp hmem
      have hfin : highest = .fin (jsq highest) := by
        rw [← hx0key]
        unfold actKey
        rw [salienceKey_nonNan _ (hnan x0 hx0mem)]
        rfl
      have hsk : salienceKey highest = highest := by
        rw [hfin]
        rfl
      have hactkey : ∀ x ∈ L, actKey x = .fin (salQ x) := by
        intro x hx
        unfold actKey
        rw [salienceKey_nonNan _ (hnan x hx)]
        rfl
      have hQ : jsq highest = maxSalQ L := by
        obtain ⟨⟨a1, ha1, hval⟩, hboundQ⟩ := maxSalQ_spec L hLne
        apply le_antisymm
        · have h1 : jsq highest = salQ x0 := by
            have := hactkey x0 hx0mem
            rw [← hx0key, this]
            rfl
          rw [h1]
          exact hboundQ x0 hx0mem
        · have h2 : actKey a1 ∈ (buildGroups L).map (fun g => g.1) :=
            (hkeys_iff (actKey a1)).mpr ⟨a1, ha1, rfl⟩
          have h3 := hbound (actKey a1) h2
          rw [hactkey a1 ha1] at h3
          rw [hval]
          exact h3
      have hhigh2 : highest = .fin (maxSalQ L) := by rw [hfin, hQ]
      have hpred : ∀ x ∈ L, ((actKey x == highest) : Bool)
          = (salQ x == maxSalQ L) := by
        intro x hx
        rw [hactkey x hx, hhigh2, finBeq]
      have hfne : L.filter (fun x => actKey x == highest) ≠ [] := by
        exact List.ne_nil_of_mem (List.mem_filter.mpr
          ⟨hx0mem, by rw [hx0key]; exact beq_self_eq_true highest⟩)
      have hlook : groupLookup (buildGroups L) highest
          = some (L.filter (fun x => actKey x == highest)) := by
        unfold buildGroups
        exact groupLookup_foldl_none L [] highest rfl hfne
      obtain ⟨g, hgfind, hg2⟩ := Option.map_eq_some'.mp hlook
      have hres : resolve L
          = (match (buildGroups L).find?
              (fun g => g.1 == salienceKey highest) with
            | some g => g.2.head?
            | none => none) := rfl
      rw [hres, hsk, hgfind]
      show g.2.head? = _
      rw [hg2, find?_eq_head?_filter, List.filter_congr hpred]

/-- C2: the conflict resolver returns null for no activations and the
single activation when there is exactly one; otherwise, grouping by
salience with absent or non-numeric saliences read as 0, it returns the
first activation in input order within the numerically-highest salience
group — so saliences [10, 20, 5] select the salience-20 activation and a
highest-salience tie selects the earlier activation positionally.  (The
general clause assumes no NaN salience: the spec data model makes salience
an optional integer, and a NaN salience would propagate through
`Math.max`.) -/
theorem claim2_conflict_resolution :
    resolve [] = none
    ∧ (∀ a, resolve [a] = some a)
    ∧ (∀ (a : Activation), (∀ n, a.rule.salience ≠ .num n) →
        effectiveSalience a = .fin 0)
    ∧ (∀ acts, acts ≠ [] →
        (∀ x ∈ acts, jsIsNan (effectiveSalience x) = false) →
        resolve acts = acts.find? (fun x => salQ x == maxSalQ acts))
    ∧ (∀ a b c : Activation, a.rule.salience = Value.qnum 10 →
        b.rule.salience = Value.qnum 20 → c.rule.salience = Value.qnum 5 →
        resolve [a, b, c] = some b)
    ∧ (∀ a b : Activation, a.rule.salience = Value.qnum 7 →
        b.rule.salience = Value.qnum 7 → resolve [a, b] = some a) := by
  refine ⟨rfl, fun a => rfl, ?_, resolve_general, ?_, ?_⟩
  · intro a h
    unfold effectiveSalience
    cases hv : a.rule.salience with
    | num n => exact absurd hv (h n)
    | undef => rfl
    | null => rfl
    | bool c => rfl
    | str s => rfl
    | arr xs => rfl
    | obj fs => rfl
  · intro a b c ha hb hc
    have hea : effectiveSalience a = .fin 10 := by
      unfold effectiveSalience; rw [ha]; rfl
    have heb : effectiveSalience b = .fin 20 := by
      unfold effectiveSalience; rw [hb]; rfl
    have hec : effectiveSalience c = .fin 5 := by
      unfold effectiveSalience; rw [hc]; rfl
    have hsa : salQ a = 10 := by rw [salQ, hea]; rfl
    have hsb : salQ b = 20 := by rw [salQ, heb]; rfl
    have hsc : salQ c = 5 := by rw [salQ, hec]; rfl
    rw [resolve_general [a, b, c] (by simp) (by
      intro x hx
      rcases List.mem_cons.mp hx with h1 | hx2
      · rw [h1, hea]; rfl
      rcases List.mem_cons.mp hx2 with h1 | hx3
      · rw [h1, heb]; rfl
      rcases List.mem_cons.mp hx3 with h1 | hx4
      · rw [h1, hec]; rfl
      · simp at hx4)]
    have hmax : maxSalQ [a, b, c] = 20 := by
      unfold maxSalQ
      simp only [List.foldl_cons, List.foldl_nil]
      rw [hsa, hsb, hsc]
      norm_num
    have h1 : (salQ a == maxSalQ [a, b, c]) = false := by
      rw [hsa, hmax]; norm_num
    have h2 : (salQ b == maxSalQ [a, b, c]) = true := by
      rw [hsb, hmax]; simp
    simp [List.find?_cons, h1, h2]
  · intro a b ha hb
    have hea : effectiveSalience a = .fin 7 := by
      unfold effectiveSalience; rw [ha]; rfl
    have heb : effectiveSalience b = .fin 7 := by
      unfold effectiveSalience; rw [hb]; rfl
    have hsa : salQ a = 7 := by rw [salQ, hea]; rfl
    have hsb : salQ b = 7 := by rw [salQ, heb]; rfl
    rw [resolve_general [a, b] (by simp) (by
      intro x hx
      rcases List.mem_cons.mp hx with h1 | hx2
      · rw [h1, hea]; rfl
      rcases List.mem_cons.mp hx2 with h1 | hx3
      · rw [h1, heb]; rfl
      · simp at hx3)]
    have hmax : maxSalQ [a, b] = 7 := by
      unfold maxSalQ
      simp only [List.foldl_cons, List.foldl_nil]
      rw [hsa, hsb]
      norm_num
    have h1 : (salQ a == maxSalQ [a, b]) = true := by
      rw [hsa, hmax]; simp
    simp [List.find?_cons, h1]

/-- C2 witness: the [10, 20, 5] example resolved concretely. -/
theorem claim2_witness :
    resolve [⟨⟨"r1", "rule", [], [], Value.qnum 10, []⟩, [], []⟩,
             ⟨⟨"r2", "rule", [], [], Value.qnum 20, []⟩, [], []⟩,
             ⟨⟨"r3", "rule", [], [], Value.qnum 5, []⟩, [], []⟩]
      = some ⟨⟨"r2", "rule", [], [], Value.qnum 20, []⟩, [], []⟩ :=
  claim2_conflict_resolution.2.2.2.2.1 _ _ _ rfl rfl rfl

/-! ## Truth maintenance (C1) -/

theorem find?_filter_keyne (facts : List (Nat × FactEntry)) (pid id : Nat)
    (h : pid ≠ id) :
    (facts.filter (fun f => !(f.1 == id))).find? (fun f => f.1 == pid)
      = facts.find? (fun f => f.1 == pid) := by
  induction facts with
  | nil => rfl
  | cons f rest ih =>
    by_cases hf : f.1 = id
    · have h1 : (f.1 == id) = true := beq_iff_eq.mpr hf
      have h2 : (f.1 == pid) = false :=
        beq_eq_false_iff_ne.mpr (by rw [hf]; exact fun hb => h hb.symm)
      simp [List.filter_cons, h1, List.find?_cons, h2, ih]
    · have h1 : (f.1 == id) = false := beq_eq_false_iff_ne.mpr hf
      by_cases hp : f.1 = pid
      · have h2 : (f.1 == pid) = true := beq_iff_eq.mpr hp
        simp [List.filter_cons, h1, List.find?_cons, h2]
      · have h2 : (f.1 == pid) = false := beq_eq_false_iff_ne.mpr hp
        simp [List.filter_cons, h1, List.find?_cons, h2, ih]

theorem retract_getFactEntry_self (s : Storage) (id : Nat) :
    (s.retract id).2.getFactEntry id = none := by
  unfold Storage.retract
  cases h : s.getFactEntry id with
  | none => exact h
  | some e =>
    simp only [Storage.getFactEntry]
    rw [List.find?_eq_none.mpr]
    · rfl
    · intro x hx
      have := (List.mem_filter.mp hx).2
      simp at this ⊢
      exact this
  
theorem retract_getFactEntry_other (s : Storage) (id pid : Nat) (h : pid ≠ id) :
    (s.retract id).2.getFactEntry pid = s.getFactEntry pid := by
  unfold Storage.retract
  cases he : s.getFactEntry id with
  | none => rfl
  | some e =>
    simp only [Storage.getFactEntry]
    rw [find?_filter_keyne s.facts pid id h]

theorem retractFactE_storage (e : Engine) (id : Nat) :
    (e.retractFactE id).storage = (e.storage.retract id).2 := by
  unfold Engine.retractFactE
  cases h : e.storage.retract id with
  | mk fst snd => cases fst <;> rfl

theorem retractFactE_acts (e : Engine) (id : Nat) :
    (e.retractFactE id).activations = e.activations := by
  unfold Engine.retractFactE
  cases h : e.storage.retract id with
  | mk fst snd => cases fst <;> rfl

theorem retractFactE_agenda (e : Engine) (id : Nat) :
    (e.retractFactE id).agenda = e.agenda
      ∨ ∃ entry, e.storage.getFactEntry id = some entry
          ∧ (e.retractFactE id).agenda = e.agenda ++ [⟨.retract, entry.fact⟩] := by
  unfold Engine.retractFactE Storage.retract
  cases h : e.storage.getFactEntry id with
  | none => exact Or.inl rfl
  | some entry => exact Or.inr ⟨entry, rfl, rfl⟩

theorem tmRetractStep_none (aid : Nat) (acc : Engine) (pid2 pid : Nat)
    (h : acc.storage.getFactEntry pid = none) :
    (tmRetractStep aid acc pid2).storage.getFactEntry pid = none := by
  unfold tmRetractStep
  split
  · split
    · rw [retractFactE_storage]
      by_cases hp : pid = pid2
      · rw [hp]; exact retract_getFactEntry_self _ _
      · rw [retract_getFactEntry_other _ _ _ hp]; exact h
    · exact h
  · exact h

theorem tmRetractStep_task (aid : Nat) (acc : Engine) (pid2 : Nat) (t : Task)
    (h : t ∈ acc.agenda) :
    t ∈ (tmRetractStep aid acc pid2).agenda := by
  unfold tmRetractStep
  split
  · split
    · rcases retractFactE_agenda acc pid2 with ha | ⟨en, _, ha⟩ <;>
        rw [ha] <;> simp [h]
    · exact h
  · exact h

theorem tmRetractStep_acts (aid : Nat) (acc : Engine) (pid2 : Nat) :
    (tmRetractStep aid acc pid2).activations = acc.activations := by
  unfold tmRetractStep
  split
  · split
    · rw [retractFactE_acts]
    · rfl
  · rfl

theorem tmRetractStep_foreign (aid aid0 : Nat) (acc : Engine) (pid2 pid : Nat)
    (entry : FactEntry)
    (hne : aid0 ≠ aid)
    (h : acc.storage.getFactEntry pid = some entry)
    (hprod : entry.metadata.producedBy = some aid0) :
    (tmRetractStep aid acc pid2).storage.getFactEntry pid = some entry := by
  by_cases hp : pid2 = pid
  · subst hp
    unfold tmRetractStep
    rw [h]
    have hc : (entry.metadata.logical
        && entry.metadata.producedBy == some aid) = false := by
      rw [hprod]
      have h2 : ((some aid0 == some aid) : Bool) = false := by
        simp
        exact hne
      simp [h2]
    simp only [hc, Bool.false_eq_true, if_false]
    exact h
  · unfold tmRetractStep
    split
    · split
      · rw [retractFactE_storage]
        rw [retract_getFactEntry_other _ _ _ (fun hb => hp hb.symm)]
        exact h
      · exact h
    · exact h

theorem tmRetractStep_self (aid : Nat) (acc : Engine) (pid : Nat)
    (entry : FactEntry)
    (h : acc.storage.getFactEntry pid = some entry)
    (hlog : entry.metadata.logical = true)
    (hprod : entry.metadata.producedBy = some aid) :
    (tmRetractStep aid acc pid).storage.getFactEntry pid = none
      ∧ (tmRetractStep aid acc pid).agenda
          = acc.agenda ++ [⟨.retract, entry.fact⟩] := by
  unfold tmRetractStep
  rw [h]
  have hc : (entry.metadata.logical
      && entry.metadata.producedBy == some aid) = true := by
    rw [hlog, hprod]
    simp
  simp only [hc, if_true]
  constructor
  · rw [retractFactE_storage]
    exact retract_getFactEntry_self _ _
  · unfold Engine.retractFactE Storage.retract
    rw [h]

theorem tmFold_none (aid : Nat) (l : List Nat) :
    ∀ (acc : Engine) pid, acc.storage.getFactEntry pid = none →
      (l.foldl (tmRetractStep aid) acc).storage.getFactEntry pid = none := by
  induction l with
  | nil => intro acc pid h; exact h
  | cons p rest ih =>
    intro acc pid h
    exact ih (tmRetractStep aid acc p) pid (tmRetractStep_none aid acc p pid h)

theorem tmFold_task (aid : Nat) (l : List Nat) :
    ∀ (acc : Engine) t, t ∈ acc.agenda →
      t ∈ (l.foldl (tmRetractStep aid) acc).agenda := by
  induction l with
  | nil => intro acc t h; exact h
  | cons p rest ih =>
    intro acc t h
    exact ih (tmRetractStep aid acc p) t (tmRetractStep_task aid acc p t h)

theorem tmFold_acts (aid : Nat) (l : List Nat) :
    ∀ (acc : Engine),
      (l.foldl (tmRetractStep aid) acc).activations = acc.activations := by
  induction l with
  | nil => intro acc; rfl
  | cons p rest ih =>
    intro acc
    rw [List.foldl_cons, ih, tmRetractStep_acts]

theorem tmFold_foreign (aid aid0 : Nat) (l : List Nat) :
    ∀ (acc : Engine) pid entry, aid0 ≠ aid →
      acc.storage.getFactEntry pid = some entry →
      entry.metadata.producedBy = some aid0 →
      (l.foldl (tmRetractStep aid) acc).storage.getFactEntry pid = some entry := by
  induction l with
  | nil => intro acc pid entry _ h _; exact h
  | cons p rest ih =>
    intro acc pid entry hne h hprod
    exact ih (tmRetractStep aid acc p) pid entry hne
      (tmRetractStep_foreign aid aid0 acc p pid entry hne h hprod) hprod

theorem tmFold_main (aid : Nat) (l : List Nat) :
    ∀ (acc : Engine) pid entry, pid ∈ l → l.Nodup →
      acc.storage.getFactEntry pid = some entry →
      entry.metadata.logical = true →
      entry.metadata.producedBy = some aid →
      (l.foldl (tmRetractStep aid) acc).storage.getFactEntry pid = none
        ∧ (⟨.retract, entry.fact⟩ : Task)
            ∈ (l.foldl (tmRetractStep aid) acc).agenda := by
  induction l with
  | nil => intro acc pid entry hmem; simp at hmem
  | cons p rest ih =>
    intro acc pid entry hmem hnodup h hlog hprod
    by_cases hp : p = pid
    · subst hp
      obtain ⟨h1, h2⟩ := tmRetractStep_self aid acc p entry h hlog hprod
      rw [List.foldl_cons]
      refine ⟨tmFold_none aid rest _ p h1, ?_⟩
      exact tmFold_task aid rest _ _ (by rw [h2]; simp)
    · have hmem2 : pid ∈ rest := by
        rcases List.mem_cons.mp hmem with h2 | h2
        · exact absurd h2.symm hp
        · exact h2
      have hpres : (tmRetractStep aid acc p).storage.getFactEntry pid
          = some entry := by
        unfold tmRetractStep
        split
        · split
          · rw [retractFactE_storage,
              retract_getFactEntry_other _ _ _ (fun hb => hp hb.symm)]
            exact h
          · exact h
        · exact h
      rw [List.foldl_cons]
      exact ih (tmRetractStep aid acc p) pid entry hmem2
        (List.Nodup.of_cons hnodup) hpres hlog hprod

theorem tmOne_acts (e : Engine) (aid : Nat) :
    (tmOne e aid).activations
      = e.activations.filter (fun a => !(a.1 == aid)) := by
  unfold tmOne
  split
  · rename_i hfind
    rw [List.filter_eq_self.mpr]
    intro x hx
    have := List.find?_eq_none.mp hfind x hx
    simpa using this
  · simp only [tmFold_acts]

theorem tmOne_none (e : Engine) (aid : Nat) (pid : Nat)
    (h : e.storage.getFactEntry pid = none) :
    (tmOne e aid).storage.getFactEntry pid = none := by
  unfold tmOne
  split
  · exact h
  · simpa using tmFold_none aid _ e pid h

theorem tmOne_task (e : Engine) (aid : Nat) (t : Task) (h : t ∈ e.agenda) :
    t ∈ (tmOne e aid).agenda := by
  unfold tmOne
  split
  · exact h
  · simpa using tmFold_task aid _ e t h

theorem tmOne_pres (e : Engine) (aid aid2 : Nat) (pid : Nat) (entry : FactEntry)
    (hprod : entry.metadata.producedBy = some aid)
    (hne : aid ≠ aid2)
    (h : e.storage.getFactEntry pid = some entry) :
    (tmOne e aid2).storage.getFactEntry pid = some entry := by
  unfold tmOne
  split
  · exact h
  · simpa using tmFold_foreign aid2 aid _ e pid entry hne h hprod

theorem find?_key_nodup (l : List (Nat × TrackedActivation)) (aid : Nat)
    (act : TrackedActivation)
    (hnodup : (l.map (fun x => x.1)).Nodup)
    (hmem : (aid, act) ∈ l) :
    l.find? (fun x => x.1 == aid) = some (aid, act) := by
  induction l with
  | nil => simp at hmem
  | cons x rest ih =>
    simp only [List.map_cons, List.nodup_cons] at hnodup
    by_cases hx : x.1 = aid
    · have hxa : x = (aid, act) := by
        rcases List.mem_cons.mp hmem with h | h
        · exact h.symm
        · exact absurd (List.mem_map.mpr ⟨(aid, act), h, hx.symm⟩) hnodup.1
      rw [hxa]
      simp [List.find?_cons]
    · have hmem2 : (aid, act) ∈ rest := by
        rcases List.mem_cons.mp hmem with h | h
        · exact absurd (by rw [← h] : x.1 = aid) hx
        · exact h
      have hb : (x.1 == aid) = false := beq_eq_false_iff_ne.mpr hx
      rw [List.find?_cons_of_neg _ (by simp [hb])]
      exact ih hnodup.2 hmem2

theorem tmOne_apply (e : Engine) (aid : Nat) (act : TrackedActivation)
    (pid : Nat) (entry : FactEntry)
    (hnodup : (e.activations.map (fun x => x.1)).Nodup)
    (hmem : (aid, act) ∈ e.activations)
    (hpmem : pid ∈ act.produced) (hpnodup : act.produced.Nodup)
    (h : e.storage.getFactEntry pid = some entry)
    (hlog : entry.metadata.logical = true)
    (hprod : entry.metadata.producedBy = some aid) :
    (tmOne e aid).storage.getFactEntry pid = none
      ∧ (⟨.retract, entry.fact⟩ : Task) ∈ (tmOne e aid).agenda := by
  unfold tmOne
  rw [find?_key_nodup e.activations aid act hnodup hmem]
  obtain ⟨h1, h2⟩ := tmFold_main aid act.produced e pid entry hpmem hpnodup
    h hlog hprod
  exact ⟨h1, h2⟩

theorem tmFoldList_none (lst : List (Nat × TrackedActivation)) :
    ∀ (e : Engine) pid, e.storage.getFactEntry pid = none →
      ((lst.foldl (fun acc x => tmOne acc x.1) e).storage.getFactEntry pid
        = none) := by
  induction lst with
  | nil => intro e pid h; exact h
  | cons x rest ih =>
    intro e pid h
    exact ih (tmOne e x.1) pid (tmOne_none e x.1 pid h)

theorem tmFoldList_task (lst : List (Nat × TrackedActivation)) :
    ∀ (e : Engine) t, t ∈ e.agenda →
      t ∈ (lst.foldl (fun acc x => tmOne acc x.1) e).agenda := by
  induction lst with
  | nil => intro e t h; exact h
  | cons x rest ih =>
    intro e t h
    exact ih (tmOne e x.1) t (tmOne_task e x.1 t h)

theorem tmFoldList_mem (lst : List (Nat × TrackedActivation)) :
    ∀ (e : Engine) p,
      p ∈ (lst.foldl (fun acc x => tmOne acc x.1) e).activations →
      p ∈ e.activations := by
  induction lst with
  | nil => intro e p h; exact h
  | cons x rest ih =>
    intro e p h
    have h2 := ih (tmOne e x.1) p h
    rw [tmOne_acts] at h2
    exact (List.mem_filter.mp h2).1

theorem tmFoldList_removed (lst : List (Nat × TrackedActivation)) :
    ∀ (e : Engine) aid, aid ∈ lst.map (fun x => x.1) →
      ∀ act2, (aid, act2) ∉
        (lst.foldl (fun acc x => tmOne acc x.1) e).activations := by
  induction lst with
  | nil => intro e aid h; simp at h
  | cons x rest ih =>
    intro e aid hmem act2 hbad
    by_cases hx : x.1 = aid
    · have hnotin : (aid, act2) ∉ (tmOne e x.1).activations := by
        rw [tmOne_acts, hx]
        intro hin
        have := (List.mem_filter.mp hin).2
        simp at this
      exact hnotin (tmFoldList_mem rest (tmOne e x.1) (aid, act2) hbad)
    · have hmem2 : aid ∈ rest.map (fun x => x.1) := by
        rcases List.mem_map.mp hmem with ⟨y, hy, hval⟩
        rcases List.mem_cons.mp hy with h1 | h1
        · exact absurd (by rw [← h1]; exact hval) hx
        · exact List.mem_map.mpr ⟨y, h1, hval⟩
      exact ih (tmOne e x.1) aid hmem2 act2 hbad

theorem tmFoldList_main (aid : Nat) (act : TrackedActivation) (pid : Nat)
    (entry : FactEntry) (lst : List (Nat × TrackedActivation)) :
    ∀ (e : Engine),
      (lst.map (fun x => x.1)).Nodup →
      (aid, act) ∈ lst →
      (e.activations.map (fun x => x.1)).Nodup →
      (aid, act) ∈ e.activations →
      pid ∈ act.produced → act.produced.Nodup →
      e.storage.getFactEntry pid = some entry →
      entry.metadata.logical = true →
      entry.metadata.producedBy = some aid →
      ((lst.foldl (fun acc x => tmOne acc x.1) e).storage.getFactEntry pid
          = none)
      ∧ (⟨.retract, entry.fact⟩ : Task)
          ∈ (lst.foldl (fun acc x => tmOne acc x.1) e).agenda := by
  induction lst with
  | nil => intro e _ hmem; simp at hmem
  | cons x rest ih =>
    intro e hlnodup hlmem henodup hemem hpmem hpnodup h hlog hprod
    simp only [List.map_cons, List.nodup_cons] at hlnodup
    by_cases hx : x.1 = aid
    · have hxa : x = (aid, act) := by
        rcases List.mem_cons.mp hlmem with h1 | h1
        · exact h1.symm
        · exact absurd (List.mem_map.mpr ⟨(aid, act), h1, hx.symm⟩) hlnodup.1
      obtain ⟨h1, h2⟩ := tmOne_apply e aid act pid entry henodup hemem
        hpmem hpnodup h hlog hprod
      rw [List.foldl_cons, hxa]
      exact ⟨tmFoldList_none rest (tmOne e aid) pid h1,
        tmFoldList_task rest (tmOne e aid) _ h2⟩
    · have hlmem2 : (aid, act) ∈ rest := by
        rcases List.mem_cons.mp hlmem with h1 | h1
        · exact absurd (by rw [← h1] : x.1 = aid) hx
        · exact h1
      have hpres := tmOne_pres e aid x.1 pid entry hprod
        (fun hb => hx hb.symm) h
      have hemem2 : (aid, act) ∈ (tmOne e x.1).activations := by
        rw [tmOne_acts]
        exact List.mem_filter.mpr ⟨hemem,
          by simp [beq_eq_false_iff_ne.mpr (fun hb : aid = x.1 => hx hb.symm)]⟩
      have henodup2 : ((tmOne e x.1).activations.map (fun y => y.1)).Nodup := by
        rw [tmOne_acts]
        exact henodup.sublist (List.Sublist.map _ (List.filter_sublist _))
      rw [List.foldl_cons]
      exact ih (tmOne e x.1) hlnodup.2 hlmem2 henodup2 hemem2 hpmem
        hpnodup hpres hlog hprod

/-- C1: truth maintenance on a retract task.  General part: whenever a
tracked activation's consumed set contains the retracted identity, the
activation record is removed, and every produced fact that still exists,
is logical and names this activation as producer is retracted with a new
retract task pushed on the agenda (no direct recursion).  Concrete part:
in the assert-A / fire / retract-A scenario the logically produced `B`
fact (id 2) exists after the first drain and is unresolvable after the
second, with agenda and activation table empty at quiescence. -/
theorem claim1_truth_maintenance
    (e : Engine) (fid aid : Nat) (act : TrackedActivation)
    (pid : Nat) (entry : FactEntry)
    (hnodup : (e.activations.map (fun x => x.1)).Nodup)
    (hmem : (aid, act) ∈ e.activations)
    (hcons : fid ∈ act.consumed)
    (hpmem : pid ∈ act.produced) (hpnodup : act.produced.Nodup)
    (hent : e.storage.getFactEntry pid = some entry)
    (hlog : entry.metadata.logical = true)
    (hprod : entry.metadata.producedBy = some aid) :
    ((∀ act2, (aid, act2) ∉ (truthMaintenance e fid).activations)
      ∧ (truthMaintenance e fid).storage.getFactEntry pid = none
      ∧ (⟨.retract, entry.fact⟩ : Task) ∈ (truthMaintenance e fid).agenda)
    ∧ tmAfterAssert.storage.getFactEntry 2
        = some ⟨.obj [("type", .str "B"), ("_id", Value.qnum 2)],
                 ⟨true, some 1⟩⟩
    ∧ tmAfterAssert.activations = [(1, ⟨"tmRule", [1], [2]⟩)]
    ∧ tmFinal.storage.getFactEntry 2 = none
    ∧ tmFinal.agenda = []
    ∧ tmFinal.activations = [] := by
  have hlmem : (aid, act)
      ∈ e.activations.filter (fun a => fid ∈ a.2.consumed) :=
    List.mem_filter.mpr ⟨hmem, by simpa using hcons⟩
  have hlnodup : ((e.activations.filter
      (fun a => fid ∈ a.2.consumed)).map (fun x => x.1)).Nodup :=
    hnodup.sublist (List.Sublist.map _ (List.filter_sublist _))
  have hkey : aid ∈ (e.activations.filter
      (fun a => fid ∈ a.2.consumed)).map (fun x => x.1) :=
    List.mem_map.mpr ⟨(aid, act), hlmem, rfl⟩
  obtain ⟨h1, h2⟩ := tmFoldList_main aid act pid entry
    (e.activations.filter (fun a => fid ∈ a.2.consumed)) e
    hlnodup hlmem hnodup hmem hpmem hpnodup hent hlog hprod
  refine ⟨⟨fun act2 => tmFoldList_removed _ e aid hkey act2, h1, h2⟩,
    ?_, ?_, ?_, ?_, ?_⟩
  · with_unfolding_all rfl
  · with_unfolding_all rfl
  · with_unfolding_all rfl
  · with_unfolding_all rfl
  · with_unfolding_all rfl

theorem claim1_witness :
    ((1, (⟨"tmRule", [1], [2]⟩ : TrackedActivation))
        ∉ (truthMaintenance tmAfterAssert 1).activations)
    ∧ (truthMaintenance tmAfterAssert 1).storage.getFactEntry 2 = none
    ∧ (⟨.retract, .obj [("type", .str "B"), ("_id", Value.qnum 2)]⟩ : Task)
        ∈ (truthMaintenance tmAfterAssert 1).agenda := by
  have hacts : tmAfterAssert.activations
      = [(1, (⟨"tmRule", [1], [2]⟩ : TrackedActivation))] := by
    with_unfolding_all rfl
  have hent : tmAfterAssert.storage.getFactEntry 2
      = some ⟨.obj [("type", .str "B"), ("_id", Value.qnum 2)],
               ⟨true, some 1⟩⟩ := by
    with_unfolding_all rfl
  have h := claim1_truth_maintenance tmAfterAssert 1 1 ⟨"tmRule", [1], [2]⟩ 2
    ⟨.obj [("type", .str "B"), ("_id", Value.qnum 2)], ⟨true, some 1⟩⟩
    (by rw [hacts]; decide)
    (by rw [hacts]; exact List.mem_singleton.mpr rfl)
    (by decide) (by decide) (by decide)
    hent rfl rfl
  exact ⟨h.1.1 _, h.1.2.1, h.1.2.2⟩

end Clarus






